import Mathlib

/-!
Verification of the clockout time-entry server (src/app.mjs) against its
specification. The SQLite tables and the Express route handlers that touch
the time_entries table are embedded as pure functions over an explicit
database state; the partial unique index idx_time_entries_one_running_per_api_key
is modelled at the level of single SQL statements, and every db.transaction
closure either returns a new state (commit) or an error (full rollback).
Timestamps are integers (milliseconds since the epoch), standing for the
normalized ISO strings the server stores; comparisons and arithmetic on
Date values translate to integer comparisons and arithmetic.
-/

namespace Clockout

/-- Row of the projects table (src/app.mjs lines 87-97). Only the columns the
time-entry logic reads are kept. -/
structure Project where
  id : Nat
  api_key_id : Nat
  name : String
deriving DecidableEq, Repr

/-- Row of the time_entries table (src/app.mjs lines 123-134). end_time = none
models SQL NULL: the entry is open (running). -/
structure Entry where
  id : Nat
  api_key_id : Nat
  project_id : Nat
  start_time : Int
  end_time : Option Int
deriving DecidableEq, Repr

/-- An entry with no end bound is open. -/
def Entry.isOpen (e : Entry) : Bool := e.end_time.isNone

/-- Database state: the two tables the time-entry logic touches plus the
autoincrement cursor of time_entries. -/
structure DB where
  projects : List Project
  entries : List Entry
  nextEntryId : Nat
deriving DecidableEq, Repr

/-- Error classes a handler can answer with: validation = HTTP 400,
notFound = 404, conflict = 409, internal = 500. -/
inductive ApiError
  | validation
  | notFound
  | conflict
  | internal
deriving DecidableEq, Repr

/-- Error inside a db.transaction closure: either a domain error object the
closure returns, or a thrown violation of the partial unique index
idx_time_entries_one_running_per_api_key; both roll the transaction back. -/
inductive TxError
  | domain (e : ApiError)
  | uniqueViolation
deriving DecidableEq, Repr

/-- Timestamp field of a request body: either a string that new Date parses
to a definite instant (kept as milliseconds), or a malformed one. -/
inductive DateStr
  | valid (t : Int)
  | malformed
deriving DecidableEq, Repr

/-- Models new Date(s) followed by the isNaN check: the parsed instant, or
none when the string is malformed. -/
def parseDate : DateStr → Option Int
  | .valid t => some t
  | .malformed => none

/-- SELECT from projects WHERE id = ? AND api_key_id = ? -/
def findProject (db : DB) (projectId apiKeyId : Nat) : Option Project :=
  db.projects.find? fun p => p.id == projectId && p.api_key_id == apiKeyId

/-- SELECT from time_entries WHERE id = ? AND api_key_id = ? -/
def getEntry (db : DB) (entryId apiKeyId : Nat) : Option Entry :=
  db.entries.find? fun e => e.id == entryId && e.api_key_id == apiKeyId

/-- One UPDATE statement on time_entries: every row satisfying cond is
replaced by mod of it. SQLite rejects the whole statement with a unique-index
violation when an updated row newly enters the partial index
idx_time_entries_one_running_per_api_key (the row becomes open) while another
open row with the same api_key_id exists after the statement. Returns the new
state and the number of affected rows (the driver's changes counter). -/
def sqlUpdateEntries (db : DB) (cond : Entry → Bool) (mod : Entry → Entry) :
    Except TxError (DB × Nat) :=
  let newEntries := db.entries.map fun e => if cond e then mod e else e
  let violation := db.entries.any fun e =>
    cond e && !e.isOpen && (mod e).isOpen &&
      newEntries.any fun b =>
        b.id != (mod e).id && b.api_key_id == (mod e).api_key_id && b.isOpen
  if violation then .error .uniqueViolation
  else .ok ({ db with entries := newEntries }, db.entries.countP cond)

/-- One INSERT statement on time_entries; the fresh row gets the autoincrement
id. Inserting an open row while the owner already has one violates the partial
unique index. Returns the new state and lastInsertRowid. -/
def sqlInsertEntry (db : DB) (apiKeyId projectId : Nat) (s : Int) (en : Option Int) :
    Except TxError (DB × Nat) :=
  if en.isNone && db.entries.any (fun b => b.api_key_id == apiKeyId && b.isOpen) then
    .error .uniqueViolation
  else
    .ok ({ db with
            entries := db.entries ++ [⟨db.nextEntryId, apiKeyId, projectId, s, en⟩],
            nextEntryId := db.nextEntryId + 1 },
         db.nextEntryId)

/-- One DELETE statement on time_entries; returns the new state and changes. -/
def sqlDeleteEntries (db : DB) (cond : Entry → Bool) : DB × Nat :=
  ({ db with entries := db.entries.filter fun e => !cond e }, db.entries.countP cond)

/-- POST /api/time-entries handler (src/app.mjs lines 464-539). When both
start_time and end_time are supplied (truthy) it imports a completed entry;
otherwise it runs the startNewEntry transaction: close every running entry of
the owner at now, then insert a fresh open entry. A unique-index violation is
answered with 409 by the route's catch block. -/
def postTimeEntries (db : DB) (apiKeyId projectId : Nat)
    (start_time end_time : Option DateStr) (now : Int) :
    Except ApiError (DB × Entry) :=
  match findProject db projectId apiKeyId with
  | none => .error .notFound
  | some _ =>
    match start_time, end_time with
    | some st, some et =>
      match parseDate st, parseDate et with
      | some s, some e =>
        if s ≥ e then .error .validation
        else
          match sqlInsertEntry db apiKeyId projectId s (some e) with
          | .ok (db1, newId) => .ok (db1, ⟨newId, apiKeyId, projectId, s, some e⟩)
          | .error _ => .error .conflict
      | _, _ => .error .validation
    | _, _ =>
      let startNewEntry : Except TxError (DB × Nat) := do
        let (db1, _) ← sqlUpdateEntries db
          (fun e => e.api_key_id == apiKeyId && e.isOpen)
          (fun e => { e with end_time := some now })
        sqlInsertEntry db1 apiKeyId projectId now none
      match startNewEntry with
      | .ok (db2, newId) => .ok (db2, ⟨newId, apiKeyId, projectId, now, none⟩)
      | .error _ => .error .conflict

/-- PATCH /api/time-entries/:id/stop handler (src/app.mjs lines 542-560):
UPDATE ... SET end_time = now WHERE id AND api_key_id AND end_time IS NULL;
404 when no row was affected. -/
def stopTimeEntry (db : DB) (apiKeyId entryId : Nat) (now : Int) :
    Except ApiError (DB × Int) :=
  match sqlUpdateEntries db
      (fun e => e.id == entryId && e.api_key_id == apiKeyId && e.isOpen)
      (fun e => { e with end_time := some now }) with
  | .ok (db1, changes) =>
    if changes == 0 then .error .notFound else .ok (db1, now)
  | .error _ => .error .internal

/-- Row function of the update statement PUT /api/time-entries/:id assembles
dynamically (src/app.mjs lines 631-650): write start_time when it was
provided, end_time when the field was present at all, project_id when it was
provided. -/
def editMod (vStart : Option Int) (vEnd : Option (Option Int))
    (project_id : Option Nat) (e : Entry) : Entry :=
  let e1 := match vStart with
    | some s => { e with start_time := s }
    | none => e
  let e2 := match vEnd with
    | some v => { e1 with end_time := v }
    | none => e1
  match project_id with
  | some pid => { e2 with project_id := pid }
  | none => e2

/-- PUT /api/time-entries/:id handler (src/app.mjs lines 563-666).
start_time = none models an absent or falsy field; end_time = none models
undefined, some none a provided falsy value (clearing the end), some (some d)
a provided string; project_id = none models absent/falsy. A malformed date
throws inside the handler and surfaces through the catch-all as a 500. -/
def putTimeEntry (db : DB) (apiKeyId entryId : Nat) (start_time : Option DateStr)
    (end_time : Option (Option DateStr)) (project_id : Option Nat) :
    Except ApiError (DB × Unit) :=
  if start_time.isNone && end_time.isNone && project_id.isNone then .error .validation
  else
    match getEntry db entryId apiKeyId with
    | none => .error .notFound
    | some existingEntry =>
      let projectOk : Except ApiError Unit :=
        match project_id with
        | some pid => if (findProject db pid apiKeyId).isSome then .ok () else .error .notFound
        | none => .ok ()
      match projectOk with
      | .error e => .error e
      | .ok _ =>
        let vStartE : Except ApiError (Option Int) :=
          match start_time with
          | none => .ok none
          | some ds =>
            match parseDate ds with
            | some t => .ok (some t)
            | none => .error .internal
        let vEndE : Except ApiError (Option (Option Int)) :=
          match end_time with
          | none => .ok none
          | some none => .ok (some none)
          | some (some ds) =>
            match parseDate ds with
            | some t => .ok (some (some t))
            | none => .error .internal
        match vStartE, vEndE with
        | .error e, _ => .error e
        | .ok _, .error e => .error e
        | .ok vStart, .ok vEnd =>
          let finalStart := vStart.getD existingEntry.start_time
          let finalEnd : Option Int :=
            match vEnd with
            | none => existingEntry.end_time
            | some v => v
          if finalEnd.elim false (fun te => decide (finalStart ≥ te)) then .error .validation
          else if finalEnd.isNone &&
              db.entries.any (fun b =>
                b.api_key_id == apiKeyId && b.isOpen && b.id != entryId) then
            .error .conflict
          else
            match sqlUpdateEntries db
                (fun e => e.id == entryId && e.api_key_id == apiKeyId)
                (editMod vStart vEnd project_id) with
            | .ok (db1, changes) => if changes == 0 then .error .notFound else .ok (db1, ())
            | .error _ => .error .conflict

/-- PATCH /api/time-entries/:id/shift-start handler (src/app.mjs lines
669-740). minutes is modelled as an integer count; the source computes
Math.round(minutes * 60 * 1000), which for an integer is minutes * 60000.
The applyShift transaction validates both resulting intervals before writing
either row. -/
def patchShiftStart (db : DB) (apiKeyId entryId : Nat) (minutes : Int)
    (previous_entry_id : Option Nat) : Except ApiError (DB × Int) :=
  if minutes ≤ 0 then .error .validation
  else
    let shiftMs := minutes * 60000
    let applyShift : Except TxError (DB × Int) :=
      match getEntry db entryId apiKeyId with
      | none => .error (.domain .notFound)
      | some current =>
        let newStart := current.start_time - shiftMs
        if current.end_time.elim false (fun te => decide (newStart ≥ te)) then
          .error (.domain .validation)
        else
          match previous_entry_id with
          | some previousEntryId =>
            match getEntry db previousEntryId apiKeyId with
            | none => .error (.domain .notFound)
            | some previous =>
              match previous.end_time with
              | none => .error (.domain .validation)
              | some pe =>
                let newPreviousEnd := pe - shiftMs
                if previous.start_time ≥ newPreviousEnd then .error (.domain .validation)
                else do
                  let (db1, _) ← sqlUpdateEntries db
                    (fun e => e.id == previousEntryId && e.api_key_id == apiKeyId)
                    (fun e => { e with end_time := some newPreviousEnd })
                  let (db2, _) ← sqlUpdateEntries db1
                    (fun e => e.id == entryId && e.api_key_id == apiKeyId)
                    (fun e => { e with start_time := newStart })
                  return (db2, newStart)
          | none => do
              let (db2, _) ← sqlUpdateEntries db
                (fun e => e.id == entryId && e.api_key_id == apiKeyId)
                (fun e => { e with start_time := newStart })
              return (db2, newStart)
    match applyShift with
    | .ok r => .ok r
    | .error (.domain e) => .error e
    | .error .uniqueViolation => .error .internal

/-- PUT /api/time-entries/:id/edit-linked handler (src/app.mjs lines 743-836),
returning the committed database together with the HTTP response. start_time
is required (falsy is rejected); end_time = none models an absent or falsy
field (the entry is left open). Inside the applyEdit transaction the linked
next entry (when supplied and the start changed) gets its end_time set to the
new start, the linked previous entry (when supplied, the end changed and the
new end is non-null) gets its start_time set to the new end, then the entry
itself is rewritten; reads see earlier writes of the same transaction.
better-sqlite3 rolls a transaction back only when its closure throws, and
applyEdit reports its domain errors by returning an error object, which
COMMITS whatever the closure wrote before the return: a rejection in the
previous-entry branch therefore keeps the next-entry UPDATE that already ran
(the committed state is db1, not db). Only a thrown unique-index violation
(possible for the final UPDATE alone, which may set end_time to NULL) rolls
everything back and is answered 500 by this route's catch block. -/
def putEditLinked (db : DB) (apiKeyId entryId : Nat) (start_time : Option DateStr)
    (end_time : Option DateStr) (next_entry_id previous_entry_id : Option Nat) :
    DB × Except ApiError (Int × Option Int) :=
  match start_time with
  | none => (db, .error .validation)
  | some st =>
    match parseDate st with
    | none => (db, .error .validation)
    | some newStart =>
      let newEndE : Except ApiError (Option Int) :=
        match end_time with
        | none => .ok none
        | some ds =>
          match parseDate ds with
          | some t => .ok (some t)
          | none => .error .validation
      match newEndE with
      | .error e => (db, .error e)
      | .ok newEnd =>
        if newEnd.elim false (fun ne => decide (newStart ≥ ne)) then
          (db, .error .validation)
        else
          match getEntry db entryId apiKeyId with
          | none => (db, .error .notFound)
          | some current =>
            let startChanged := newStart != current.start_time
            let endChanged := newEnd != current.end_time
            let nextStep : Except TxError DB :=
              match next_entry_id, startChanged with
              | some nextEntryId, true =>
                match getEntry db nextEntryId apiKeyId with
                | none => .error (.domain .notFound)
                | some nextEntry =>
                  if nextEntry.start_time ≥ newStart then .error (.domain .validation)
                  else
                    (sqlUpdateEntries db
                      (fun e => e.id == nextEntryId && e.api_key_id == apiKeyId)
                      (fun e => { e with end_time := some newStart })).map (·.1)
              | _, _ => .ok db
            match nextStep with
            | .error (.domain e) => (db, .error e)
            | .error .uniqueViolation => (db, .error .internal)
            | .ok db1 =>
              let prevStep : Except TxError DB :=
                match previous_entry_id, endChanged, newEnd with
                | some previousEntryId, true, some ne =>
                  match getEntry db1 previousEntryId apiKeyId with
                  | none => .error (.domain .notFound)
                  | some previousEntry =>
                    match previousEntry.end_time with
                    | none => .error (.domain .validation)
                    | some pe =>
                      if ne ≥ pe then .error (.domain .validation)
                      else
                        (sqlUpdateEntries db1
                          (fun e => e.id == previousEntryId && e.api_key_id == apiKeyId)
                          (fun e => { e with start_time := ne })).map (·.1)
                | _, _, _ => .ok db1
              match prevStep with
              | .error (.domain e) => (db1, .error e)
              | .error .uniqueViolation => (db, .error .internal)
              | .ok db2 =>
                match sqlUpdateEntries db2
                    (fun e => e.id == entryId && e.api_key_id == apiKeyId)
                    (fun e => { e with start_time := newStart, end_time := newEnd }) with
                | .error _ => (db, .error .internal)
                | .ok p => (p.1, .ok (newStart, newEnd))

/-- DELETE /api/time-entries/:id handler (src/app.mjs lines 839-856). -/
def deleteTimeEntry (db : DB) (apiKeyId entryId : Nat) : Except ApiError (DB × Unit) :=
  let r := sqlDeleteEntries db (fun e => e.id == entryId && e.api_key_id == apiKeyId)
  if r.2 == 0 then .error .notFound else .ok (r.1, ())

/-- Shape of one element of the GET /api/time-entries response
(src/app.mjs lines 447-456). -/
structure EntryView where
  id : Nat
  project_id : Nat
  start : Int
  stop : Option Int
  duration : Int
  name : String
deriving DecidableEq, Repr

/-- GET /api/time-entries?all=true handler (src/app.mjs lines 418-461): the
owner's entries joined with projects on project id, ordered by start_time
descending, duration being Math.floor of the millisecond difference over
1000 when closed and -1 when running. -/
def getTimeEntriesAll (db : DB) (apiKeyId : Nat) : List EntryView :=
  let joined := (db.entries.filter fun e => e.api_key_id == apiKeyId).filterMap
    fun e => (db.projects.find? fun p => p.id == e.project_id).map fun p => (e, p.name)
  let ordered := joined.insertionSort fun a b => b.1.start_time ≤ a.1.start_time
  ordered.map fun ep =>
    { id := ep.1.id, project_id := ep.1.project_id, start := ep.1.start_time,
      stop := ep.1.end_time,
      duration := match ep.1.end_time with
        | some te => (te - ep.1.start_time).fdiv 1000
        | none => -1,
      name := ep.2 }

/-- Ordering of the reconciler's SELECT: ORDER BY api_key_id, start_time DESC,
id DESC (src/app.mjs lines 139-144). -/
def rowLe (a b : Entry) : Prop :=
  a.api_key_id < b.api_key_id ∨
    (a.api_key_id = b.api_key_id ∧
      (b.start_time < a.start_time ∨ (b.start_time = a.start_time ∧ b.id ≤ a.id)))

instance : DecidableRel rowLe := fun a b => by unfold rowLe; infer_instance

instance : IsTotal Entry rowLe := by
  constructor; intro a b; unfold rowLe; omega

instance : IsTrans Entry rowLe := by
  constructor; intro a b c hab hbc; unfold rowLe at hab hbc ⊢; omega

/-- Push one running row onto the group of its api_key_id, creating the group
at the end on first sight: models the Map of arrays built at src/app.mjs
lines 146-152 (a JS Map iterates in insertion order). -/
def addToGroups (gs : List (Nat × List Entry)) (r : Entry) : List (Nat × List Entry) :=
  match gs with
  | [] => [(r.api_key_id, [r])]
  | (k, g) :: rest =>
    if k = r.api_key_id then (k, g ++ [r]) :: rest
    else (k, g) :: addToGroups rest r

/-- Close one stale running row: UPDATE time_entries SET end_time = ?
WHERE id = ? AND end_time IS NULL (src/app.mjs line 156). -/
def closeStale (entries : List Entry) (staleId : Nat) (t : Int) : List Entry :=
  entries.map fun e =>
    if e.id == staleId && e.isOpen then { e with end_time := some t } else e

/-- Body of the reconciler's outer loop over one owner's group of running
rows (src/app.mjs lines 154-166): a group with fewer than two rows is left
alone, otherwise every row after the first (the stales) is closed at the
first (newest) row's start_time, counting one close per stale row. -/
def reconStep (acc : List Entry × Nat) (kg : Nat × List Entry) : List Entry × Nat :=
  match kg.2 with
  | [] => acc
  | newest :: stales =>
    if stales.isEmpty then acc
    else stales.foldl
      (fun acc2 stale => (closeStale acc2.1 stale.id newest.start_time, acc2.2 + 1))
      acc

/-- Startup reconciliation (src/app.mjs lines 138-172): list the running rows
ordered by api_key_id, start_time DESC, id DESC; group them by api_key_id;
for every group with more than one row keep the first (newest) and close the
rest at the newest row's start_time. Returns the repaired database and
closedCount, the number the function logs. -/
def reconcileRunningEntriesForConstraints (db : DB) : DB × Nat :=
  let rows := (db.entries.filter fun e => e.isOpen).insertionSort rowLe
  let rowsByApiKey := rows.foldl addToGroups []
  let repaired := rowsByApiKey.foldl reconStep (db.entries, 0)
  ({ db with entries := repaired.1 }, repaired.2)

/-- Committed database after a handler ran: the handler's state on success,
the original state when it answered an error (rollback / nothing written). -/
def commit {α : Type} (db : DB) (r : Except ApiError (DB × α)) : DB :=
  match r with
  | .ok (db1, _) => db1
  | .error _ => db

/-- One API request against the time-entries resource. post covers both
start (no bounds) and importClosed (both bounds). -/
inductive Op
  | post (apiKeyId projectId : Nat) (start_time end_time : Option DateStr) (now : Int)
  | stop (apiKeyId entryId : Nat) (now : Int)
  | put (apiKeyId entryId : Nat) (s : Option DateStr) (e : Option (Option DateStr))
      (p : Option Nat)
  | shift (apiKeyId entryId : Nat) (minutes : Int) (prev : Option Nat)
  | editLinked (apiKeyId entryId : Nat) (s : Option DateStr) (e : Option DateStr)
      (next prev : Option Nat)
  | del (apiKeyId entryId : Nat)

/-- Committed state after serving one request. putEditLinked returns its
committed state itself (its transaction commits even on returned errors),
the other handlers commit on success and leave the state alone on error. -/
def applyOp (db : DB) : Op → DB
  | .post k p s e now => commit db (postTimeEntries db k p s e now)
  | .stop k i now => commit db (stopTimeEntry db k i now)
  | .put k i s e p => commit db (putTimeEntry db k i s e p)
  | .shift k i m prev => commit db (patchShiftStart db k i m prev)
  | .editLinked k i s e nx pv => (putEditLinked db k i s e nx pv).1
  | .del k i => commit db (deleteTimeEntry db k i)

/-- Number of open entries one owner has. -/
def openCount (db : DB) (k : Nat) : Nat :=
  db.entries.countP fun e => e.api_key_id == k && e.isOpen

/-- The owner's open entries. -/
def openRows (db : DB) (k : Nat) : List Entry :=
  db.entries.filter fun e => e.api_key_id == k && e.isOpen

/-- Invariant 1 of the data model: at most one open entry per owner. -/
def OneOpenPerOwner (db : DB) : Prop := ∀ k, openCount db k ≤ 1

/-- Structural well-formedness the SQLite schema provides: row ids are unique
(INTEGER PRIMARY KEY) and below the autoincrement cursor. -/
def WFdb (db : DB) : Prop :=
  (db.entries.map Entry.id).Nodup ∧ ∀ e ∈ db.entries, e.id < db.nextEntryId

/-- The row the reconciler keeps for one owner: the first row of that owner in
the ordered running-row listing. -/
def keptFor (db : DB) (k : Nat) : Option Entry :=
  ((db.entries.filter fun e => e.isOpen).insertionSort rowLe).find?
    fun r => r.api_key_id == k

/-- Description of the reconciler used to state its correctness per row: an
open row that is not the kept row of its owner is closed at the kept row's
start_time, every other row is untouched. -/
def reconcileSpecFun (db : DB) (e : Entry) : Entry :=
  match keptFor db e.api_key_id with
  | some kept =>
    if e.isOpen && e.id != kept.id then { e with end_time := some kept.start_time } else e
  | none => e

/-- Both states well formed and satisfying the single-open-entry invariant. -/
def Good (db : DB) : Prop := WFdb db ∧ OneOpenPerOwner db

/-- The running rows the reconciler selects, in its SELECT order. -/
def reconRows (db : DB) : List Entry :=
  (db.entries.filter fun e => e.isOpen).insertionSort rowLe

/-- The per-owner groups the reconciler builds from the ordered rows. -/
def reconGroups (db : DB) : List (Nat × List Entry) :=
  (reconRows db).foldl addToGroups []

/-- The (stale id, close time) pairs one group of running rows produces: the
reconciler keeps the first row of the group and closes every later row of
the group at the first row's start_time. -/
def stalePairs (g : List Entry) : List (Nat × Int) :=
  match g with
  | [] => []
  | newest :: stales => stales.map fun s => (s.id, newest.start_time)

/-- One UPDATE of the reconciler's inner loop together with its counter. -/
def closeOne (acc : List Entry × Nat) (q : Nat × Int) : List Entry × Nat :=
  (closeStale acc.1 q.1 q.2, acc.2 + 1)

/-- All (stale id, close time) pairs the reconciler's two nested loops
issue, in order. -/
def flatStalePairs (gs : List (Nat × List Entry)) : List (Nat × Int) :=
  (gs.map fun kg => stalePairs kg.2).flatten

/-- Row function equivalent to folding closeOne over a pair list: an open
row whose id has a pair is closed at the pair's time, every other row is
untouched. -/
def closeFun (ps : List (Nat × Int)) (e : Entry) : Entry :=
  if e.isOpen then
    match ps.find? fun q => q.1 == e.id with
    | some q => { e with end_time := some q.2 }
    | none => e
  else e

/-- Invariant of the grouping fold: after pushing the rows of pre onto gs,
the keys are distinct, each group holds exactly the rows of pre carrying
its key in their original order, and every pushed row's key has a group. -/
def GroupsInv (pre : List Entry) (gs : List (Nat × List Entry)) : Prop :=
  (gs.map Prod.fst).Nodup ∧
    (∀ p ∈ gs, p.2 = pre.filter fun x => x.api_key_id == p.1) ∧
    (∀ x ∈ pre, x.api_key_id ∈ gs.map Prod.fst)

/-- Example table with one owner holding three open entries whose starts
are 0 < 10 < 20. -/
def exampleDupDb : DB :=
  ⟨[⟨1, 1, "A"⟩], [⟨1, 1, 1, 0, none⟩, ⟨2, 1, 1, 10, none⟩, ⟨3, 1, 1, 20, none⟩], 4⟩

/-- Example table with one owner holding three open entries that share one
start instant, with ids 1, 5 and 3. -/
def exampleTieDb : DB :=
  ⟨[⟨1, 1, "A"⟩], [⟨1, 1, 1, 10, none⟩, ⟨5, 1, 1, 10, none⟩, ⟨3, 1, 1, 10, none⟩], 6⟩

/-! ### The single-open-entry invariant as a pairwise property -/

theorem oneOpen_iff_pairwise (l : List Entry) :
    (∀ k, l.countP (fun e => e.api_key_id == k && e.isOpen) ≤ 1) ↔
      l.Pairwise fun a b =>
        ¬(a.api_key_id = b.api_key_id ∧ a.isOpen = true ∧ b.isOpen = true) := by
  induction l with
  | nil => simp
  | cons a l ih =>
    rw [List.pairwise_cons]
    constructor
    · intro h
      refine ⟨?_, ih.mp fun k => ?_⟩
      · rintro b hb ⟨hkeq, hao, hbo⟩
        have h2 := h a.api_key_id
        rw [List.countP_cons, if_pos (by simp [hao])] at h2
        have hb1 : 0 < l.countP fun e => e.api_key_id == a.api_key_id && e.isOpen :=
          List.countP_pos_iff.mpr ⟨b, hb, by simp [hkeq.symm, hbo]⟩
        omega
      · have h2 := h k
        rw [List.countP_cons] at h2
        by_cases hk : (a.api_key_id == k && a.isOpen) = true
        · rw [if_pos hk] at h2; omega
        · rw [if_neg hk] at h2; omega
    · rintro ⟨hhead, htail⟩ k
      rw [List.countP_cons]
      by_cases hk : (a.api_key_id == k && a.isOpen) = true
      · rw [if_pos hk]
        simp only [Bool.and_eq_true, beq_iff_eq] at hk
        have h0 : (l.countP fun e => e.api_key_id == k && e.isOpen) = 0 := by
          apply List.countP_eq_zero.mpr
          intro b hb hbp
          simp only [Bool.and_eq_true, beq_iff_eq] at hbp
          exact hhead b hb ⟨by rw [hk.1, hbp.1], hk.2, hbp.2⟩
        omega
      · rw [if_neg hk]
        have := (ih.mpr htail) k
        omega

theorem oneOpenPerOwner_iff (db : DB) :
    OneOpenPerOwner db ↔
      db.entries.Pairwise fun a b =>
        ¬(a.api_key_id = b.api_key_id ∧ a.isOpen = true ∧ b.isOpen = true) :=
  oneOpen_iff_pairwise db.entries

/-! ### Elimination lemmas for the statement primitives -/

theorem sqlUpdateEntries_ok {db : DB} {cond : Entry → Bool} {mod : Entry → Entry}
    {db' : DB} {n : Nat} (h : sqlUpdateEntries db cond mod = .ok (db', n)) :
    db' = { db with entries := db.entries.map fun e => if cond e then mod e else e } ∧
      n = db.entries.countP cond ∧
      (db.entries.any fun e =>
        cond e && !e.isOpen && (mod e).isOpen &&
          (db.entries.map fun x => if cond x then mod x else x).any fun b =>
            b.id != (mod e).id && b.api_key_id == (mod e).api_key_id && b.isOpen) = false := by
  simp only [sqlUpdateEntries] at h
  split at h
  · exact absurd h (by simp)
  · rename_i hv
    simp only [Except.ok.injEq, Prod.mk.injEq] at h
    exact ⟨h.1.symm, h.2.symm, by simpa using hv⟩

theorem sqlInsertEntry_ok {db : DB} {k p : Nat} {s : Int} {en : Option Int}
    {db' : DB} {newId : Nat} (h : sqlInsertEntry db k p s en = .ok (db', newId)) :
    db' = { db with entries := db.entries ++ [⟨db.nextEntryId, k, p, s, en⟩],
                    nextEntryId := db.nextEntryId + 1 } ∧
      newId = db.nextEntryId ∧
      (en.isNone && db.entries.any fun b => b.api_key_id == k && b.isOpen) = false := by
  simp only [sqlInsertEntry] at h
  split at h
  · exact absurd h (by simp)
  · rename_i hv
    simp only [Except.ok.injEq, Prod.mk.injEq] at h
    exact ⟨h.1.symm, h.2.symm, by simpa using hv⟩

/-! ### Preservation of well-formedness and of the invariant -/

theorem WFdb_update {db : DB} {cond : Entry → Bool} {mod : Entry → Entry} {db' : DB} {n : Nat}
    (hid : ∀ e, (mod e).id = e.id)
    (h : sqlUpdateEntries db cond mod = .ok (db', n)) (hwf : WFdb db) : WFdb db' := by
  obtain ⟨hdb, -, -⟩ := sqlUpdateEntries_ok h
  subst hdb
  have hids : (db.entries.map fun e => if cond e then mod e else e).map Entry.id
      = db.entries.map Entry.id := by
    rw [List.map_map]
    apply List.map_congr_left
    intro a _
    by_cases hc : cond a <;> simp [hc, hid]
  refine ⟨?_, ?_⟩
  · show ((db.entries.map fun e => if cond e then mod e else e).map Entry.id).Nodup
    rw [hids]; exact hwf.1
  · intro e he
    obtain ⟨a, ha, rfl⟩ := List.mem_map.mp he
    have : (if cond a then mod a else a).id = a.id := by
      by_cases hc : cond a <;> simp [hc, hid]
    rw [this]
    exact hwf.2 a ha

theorem oneOpen_update {db : DB} {cond : Entry → Bool} {mod : Entry → Entry} {db' : DB} {n : Nat}
    (hid : ∀ e, (mod e).id = e.id) (hkey : ∀ e, (mod e).api_key_id = e.api_key_id)
    (h : sqlUpdateEntries db cond mod = .ok (db', n)) (hwf : WFdb db)
    (hinv : OneOpenPerOwner db) : OneOpenPerOwner db' := by
  obtain ⟨hdb, -, hnv⟩ := sqlUpdateEntries_ok h
  subst hdb
  rw [oneOpenPerOwner_iff] at hinv ⊢
  show List.Pairwise _ (db.entries.map fun e => if cond e then mod e else e)
  rw [List.pairwise_map]
  have hids : db.entries.Pairwise fun a b => a.id ≠ b.id := by
    have h1 := hwf.1
    rw [List.Nodup] at h1
    exact List.pairwise_map.mp h1
  have hfkey : ∀ x, (if cond x then mod x else x).api_key_id = x.api_key_id := by
    intro x; by_cases hc : cond x <;> simp [hc, hkey]
  have hfid : ∀ x, (if cond x then mod x else x).id = x.id := by
    intro x; by_cases hc : cond x <;> simp [hc, hid]
  rw [List.any_eq_false] at hnv
  refine (hinv.and hids).imp_of_mem ?_
  rintro a b ha hb ⟨hP, hne⟩ ⟨hkeq, hao, hbo⟩
  have hab : a.api_key_id = b.api_key_id := by rw [← hfkey a, ← hfkey b, hkeq]
  by_cases haopen : a.isOpen = true
  · by_cases hbopen : b.isOpen = true
    · exact hP ⟨hab, haopen, hbopen⟩
    · -- b is newly opened by the statement: the uniqueness check rejects it
      have hcb : cond b = true := by
        by_contra hc
        rw [if_neg (by simpa using hc)] at hbo
        exact hbopen hbo
      refine hnv b hb ?_
      simp only [Bool.and_eq_true, Bool.not_eq_true', List.any_eq_true]
      refine ⟨⟨⟨hcb, by simpa using hbopen⟩, by rw [if_pos hcb] at hbo; exact hbo⟩,
        ⟨if cond a then mod a else a, List.mem_map_of_mem _ ha, ?_⟩⟩
      simp only [Bool.and_eq_true, bne_iff_ne, beq_iff_eq]
      exact ⟨⟨by rw [hfid a, hid b]; exact hne, by rw [hfkey a, hkey b]; exact hab⟩, hao⟩
  · -- a is newly opened by the statement
    have hca : cond a = true := by
      by_contra hc
      rw [if_neg (by simpa using hc)] at hao
      exact haopen hao
    refine hnv a ha ?_
    simp only [Bool.and_eq_true, Bool.not_eq_true', List.any_eq_true]
    refine ⟨⟨⟨hca, by simpa using haopen⟩, by rw [if_pos hca] at hao; exact hao⟩,
      ⟨if cond b then mod b else b, List.mem_map_of_mem _ hb, ?_⟩⟩
    simp only [Bool.and_eq_true, bne_iff_ne, beq_iff_eq]
    exact ⟨⟨by rw [hfid b, hid a]; exact fun hh => hne hh.symm,
      by rw [hfkey b, hkey a]; exact hab.symm⟩, hbo⟩

theorem WFdb_insert {db : DB} {k p : Nat} {s : Int} {en : Option Int} {db' : DB} {newId : Nat}
    (h : sqlInsertEntry db k p s en = .ok (db', newId)) (hwf : WFdb db) : WFdb db' := by
  obtain ⟨hdb, -, -⟩ := sqlInsertEntry_ok h
  subst hdb
  refine ⟨?_, ?_⟩
  · show ((db.entries ++ [(⟨db.nextEntryId, k, p, s, en⟩ : Entry)]).map Entry.id).Nodup
    rw [List.map_append, List.nodup_append]
    refine ⟨hwf.1, by simp, ?_⟩
    intro x hx hx2
    simp only [List.map_cons, List.map_nil, List.mem_singleton] at hx2
    obtain ⟨a, ha, rfl⟩ := List.mem_map.mp hx
    have := hwf.2 a ha
    omega
  · intro e he
    rcases List.mem_append.mp he with he1 | he2
    · have := hwf.2 e he1
      show e.id < db.nextEntryId + 1
      omega
    · simp only [List.mem_singleton] at he2
      subst he2
      show db.nextEntryId < db.nextEntryId + 1
      omega

theorem oneOpen_insert {db : DB} {k p : Nat} {s : Int} {en : Option Int} {db' : DB} {newId : Nat}
    (h : sqlInsertEntry db k p s en = .ok (db', newId))
    (hinv : OneOpenPerOwner db) : OneOpenPerOwner db' := by
  obtain ⟨hdb, -, hnv⟩ := sqlInsertEntry_ok h
  subst hdb
  rw [oneOpenPerOwner_iff] at hinv ⊢
  show List.Pairwise _ (db.entries ++ [(⟨db.nextEntryId, k, p, s, en⟩ : Entry)])
  rw [List.pairwise_append]
  refine ⟨hinv, by simp, ?_⟩
  intro a ha b hb
  simp only [List.mem_singleton] at hb
  subst hb
  rintro ⟨hkeq, hao, hbo⟩
  rw [Bool.and_eq_false_iff] at hnv
  rcases hnv with hen | hany
  · -- the inserted row is closed
    simp only [Entry.isOpen] at hbo
    rw [hbo] at hen
    exact absurd hen (by simp)
  · -- no running row of this owner existed
    rw [List.any_eq_false] at hany
    refine hany a ha ?_
    simp only [Bool.and_eq_true, beq_iff_eq]
    exact ⟨by simpa using hkeq, hao⟩

theorem WFdb_delete {db : DB} {cond : Entry → Bool} (hwf : WFdb db) :
    WFdb (sqlDeleteEntries db cond).1 := by
  refine ⟨?_, ?_⟩
  · show ((db.entries.filter fun e => !cond e).map Entry.id).Nodup
    exact ((List.filter_sublist db.entries).map Entry.id).nodup hwf.1
  · intro e he
    exact hwf.2 e (List.mem_of_mem_filter he)

theorem oneOpen_delete {db : DB} {cond : Entry → Bool} (hinv : OneOpenPerOwner db) :
    OneOpenPerOwner (sqlDeleteEntries db cond).1 := by
  intro k
  have h1 : openCount (sqlDeleteEntries db cond).1 k ≤ openCount db k :=
    (List.filter_sublist db.entries).countP_le _
  exact le_trans h1 (hinv k)

theorem good_update {db : DB} {cond : Entry → Bool} {mod : Entry → Entry} {db' : DB} {n : Nat}
    (h : sqlUpdateEntries db cond mod = .ok (db', n))
    (hid : ∀ e, (mod e).id = e.id) (hkey : ∀ e, (mod e).api_key_id = e.api_key_id)
    (hg : Good db) : Good db' :=
  ⟨WFdb_update hid h hg.1, oneOpen_update hid hkey h hg.1 hg.2⟩

theorem good_insert {db : DB} {k p : Nat} {s : Int} {en : Option Int} {db' : DB} {newId : Nat}
    (h : sqlInsertEntry db k p s en = .ok (db', newId)) (hg : Good db) : Good db' :=
  ⟨WFdb_insert h hg.1, oneOpen_insert h hg.2⟩

theorem editMod_id (vS : Option Int) (vE : Option (Option Int)) (pid : Option Nat) (e : Entry) :
    (editMod vS vE pid e).id = e.id := by
  unfold editMod
  cases vS <;> cases vE <;> cases pid <;> rfl

theorem editMod_key (vS : Option Int) (vE : Option (Option Int)) (pid : Option Nat) (e : Entry) :
    (editMod vS vE pid e).api_key_id = e.api_key_id := by
  unfold editMod
  cases vS <;> cases vE <;> cases pid <;> rfl

/-! ### Every handler preserves well-formedness and the invariant -/

theorem exceptBind_ok {ε α β : Type} {A : Except ε α} {f : α → Except ε β} {r : β}
    (h : A >>= f = .ok r) : ∃ a, A = .ok a ∧ f a = .ok r := by
  cases A with
  | error e => exact absurd h (by simp [Bind.bind, Except.bind])
  | ok a => exact ⟨a, rfl, by simpa [Bind.bind, Except.bind] using h⟩

theorem exceptMap_ok {ε α β : Type} {A : Except ε α} {f : α → β} {r : β}
    (h : A.map f = .ok r) : ∃ a, A = .ok a ∧ f a = r := by
  cases A with
  | error e => exact absurd h (by simp [Except.map])
  | ok a => exact ⟨a, rfl, by simpa [Except.map] using h⟩

theorem postTimeEntries_good {db : DB} {k p : Nat} {st et : Option DateStr} {now : Int}
    {db' : DB} {v : Entry} (h : postTimeEntries db k p st et now = .ok (db', v))
    (hg : Good db) : Good db' := by
  simp only [postTimeEntries] at h
  split at h
  · exact Except.noConfusion h
  split at h
  · -- import branch: both bounds supplied
    split at h
    · split at h
      · exact Except.noConfusion h
      · split at h
        · rename_i db1 newId heq
          simp only [Except.ok.injEq, Prod.mk.injEq] at h
          obtain ⟨h1, -⟩ := h
          subst h1
          exact good_insert heq hg
        · exact Except.noConfusion h
    · exact Except.noConfusion h
  · -- startNewEntry transaction
    split at h
    · rename_i db2 newId heq
      simp only [Except.ok.injEq, Prod.mk.injEq] at h
      obtain ⟨h1, -⟩ := h
      subst h1
      obtain ⟨⟨db1, m⟩, hu, hins⟩ := exceptBind_ok heq
      exact good_insert hins (good_update hu (fun _ => rfl) (fun _ => rfl) hg)
    · exact Except.noConfusion h

theorem stopTimeEntry_good {db : DB} {k i : Nat} {now : Int} {db' : DB} {v : Int}
    (h : stopTimeEntry db k i now = .ok (db', v)) (hg : Good db) : Good db' := by
  simp only [stopTimeEntry] at h
  split at h
  · rename_i db1 changes heq
    split at h
    · exact Except.noConfusion h
    · simp only [Except.ok.injEq, Prod.mk.injEq] at h
      obtain ⟨h1, -⟩ := h
      subst h1
      exact good_update heq (fun _ => rfl) (fun _ => rfl) hg
  · exact Except.noConfusion h

theorem putTimeEntry_good {db : DB} {k i : Nat} {st : Option DateStr}
    {et : Option (Option DateStr)} {pid : Option Nat} {db' : DB} {v : Unit}
    (h : putTimeEntry db k i st et pid = .ok (db', v)) (hg : Good db) : Good db' := by
  simp only [putTimeEntry] at h
  split at h
  · exact Except.noConfusion h
  split at h
  · exact Except.noConfusion h
  split at h
  · exact Except.noConfusion h
  split at h
  · exact Except.noConfusion h
  · exact Except.noConfusion h
  · split at h
    · exact Except.noConfusion h
    split at h
    · exact Except.noConfusion h
    split at h
    · rename_i db1 changes heq
      split at h
      · exact Except.noConfusion h
      · simp only [Except.ok.injEq, Prod.mk.injEq] at h
        obtain ⟨h1, -⟩ := h
        subst h1
        exact good_update heq (editMod_id _ _ _) (editMod_key _ _ _) hg
    · exact Except.noConfusion h

theorem patchShiftStart_good {db : DB} {k i : Nat} {m : Int} {prev : Option Nat}
    {db' : DB} {v : Int} (h : patchShiftStart db k i m prev = .ok (db', v))
    (hg : Good db) : Good db' := by
  simp only [patchShiftStart] at h
  split at h
  · exact Except.noConfusion h
  split at h
  · rename_i r heq
    simp only [Except.ok.injEq] at h
    subst h
    split at heq
    · exact Except.noConfusion heq
    split at heq
    · exact Except.noConfusion heq
    split at heq
    · -- with a linked previous entry
      split at heq
      · exact Except.noConfusion heq
      split at heq
      · exact Except.noConfusion heq
      split at heq
      · exact Except.noConfusion heq
      · obtain ⟨⟨db1, m1⟩, hu1, heq2⟩ := exceptBind_ok heq
        obtain ⟨⟨db2, m2⟩, hu2, heq3⟩ := exceptBind_ok heq2
        have h1 := Except.ok.inj heq3
        have h2 : db2 = db' := congrArg Prod.fst h1
        subst h2
        exact good_update hu2 (fun _ => rfl) (fun _ => rfl)
          (good_update hu1 (fun _ => rfl) (fun _ => rfl) hg)
    · -- no linked previous entry
      obtain ⟨⟨db2, m2⟩, hu, heq2⟩ := exceptBind_ok heq
      have h1 := Except.ok.inj heq2
      have h2 : db2 = db' := congrArg Prod.fst h1
      subst h2
      exact good_update hu (fun _ => rfl) (fun _ => rfl) hg
  · exact Except.noConfusion h
  · exact Except.noConfusion h

theorem putEditLinked_good {db : DB} {k i : Nat} {st et : Option DateStr}
    {nx pv : Option Nat} (hg : Good db) :
    Good (putEditLinked db k i st et nx pv).1 := by
  simp only [putEditLinked]
  split
  · exact hg
  split
  · exact hg
  split
  · exact hg
  split
  · exact hg
  split
  · exact hg
  rename_i current hcur
  split
  · exact hg
  · exact hg
  · -- the next-entry step committed db1
    rename_i db1 hn
    have hg1 : Good db1 := by
      split at hn
      · split at hn
        · exact Except.noConfusion hn
        · split at hn
          · exact Except.noConfusion hn
          · obtain ⟨⟨dbn, mn⟩, hun, hm⟩ := exceptMap_ok hn
            obtain rfl : dbn = db1 := hm
            exact good_update hun (fun _ => rfl) (fun _ => rfl) hg
      all_goals
        obtain rfl : db = db1 := Except.ok.inj hn
        exact hg
    split
    · -- previous-entry step rejected: the next-entry write stays committed
      exact hg1
    · exact hg
    · rename_i db2 hp
      have hg2 : Good db2 := by
        split at hp
        · split at hp
          · exact Except.noConfusion hp
          · split at hp
            · exact Except.noConfusion hp
            · split at hp
              · exact Except.noConfusion hp
              · obtain ⟨⟨dbp, mp⟩, hup, hm⟩ := exceptMap_ok hp
                obtain rfl : dbp = db2 := hm
                exact good_update hup (fun _ => rfl) (fun _ => rfl) hg1
        all_goals
          obtain rfl : db1 = db2 := Except.ok.inj hp
          exact hg1
      split
      · exact hg
      · rename_i p hu
        obtain ⟨db3, m3⟩ := p
        exact good_update hu (fun _ => rfl) (fun _ => rfl) hg2

theorem deleteTimeEntry_good {db : DB} {k i : Nat} {db' : DB} {v : Unit}
    (h : deleteTimeEntry db k i = .ok (db', v)) (hg : Good db) : Good db' := by
  simp only [deleteTimeEntry] at h
  split at h
  · exact Except.noConfusion h
  · simp only [Except.ok.injEq, Prod.mk.injEq] at h
    obtain ⟨h1, -⟩ := h
    subst h1
    exact ⟨WFdb_delete hg.1, oneOpen_delete hg.2⟩

theorem applyOp_good {db : DB} (op : Op) (hg : Good db) : Good (applyOp db op) := by
  cases op with
  | post k p s e now =>
    simp only [applyOp, commit]
    split
    · rename_i db1 x heq
      exact postTimeEntries_good heq hg
    · exact hg
  | stop k i now =>
    simp only [applyOp, commit]
    split
    · rename_i db1 x heq
      exact stopTimeEntry_good heq hg
    · exact hg
  | put k i s e p =>
    simp only [applyOp, commit]
    split
    · rename_i db1 x heq
      exact putTimeEntry_good heq hg
    · exact hg
  | shift k i m prev =>
    simp only [applyOp, commit]
    split
    · rename_i db1 x heq
      exact patchShiftStart_good heq hg
    · exact hg
  | editLinked k i s e nx pv =>
    simp only [applyOp]
    exact putEditLinked_good hg
  | del k i =>
    simp only [applyOp, commit]
    split
    · rename_i db1 x heq
      exact deleteTimeEntry_good heq hg
    · exact hg

theorem foldl_applyOp_good (ops : List Op) (db : DB) (hg : Good db) :
    Good (ops.foldl applyOp db) := by
  induction ops generalizing db with
  | nil => exact hg
  | cons op ops ih => exact ih _ (applyOp_good op hg)

/-! ### Further helper lemmas about the primitives -/

/-- An UPDATE statement whose row function never moves a closed row into the
partial index succeeds. -/
theorem sqlUpdateEntries_eq_ok_of {db : DB} {cond : Entry → Bool} {mod : Entry → Entry}
    (hsafe : ∀ e ∈ db.entries, (cond e && !e.isOpen && (mod e).isOpen) = false) :
    sqlUpdateEntries db cond mod
      = .ok ({ db with entries := db.entries.map fun e => if cond e then mod e else e },
             db.entries.countP cond) := by
  unfold sqlUpdateEntries
  rw [if_neg ?hv]
  case hv =>
    simp only [Bool.not_eq_true]
    rw [List.any_eq_false]
    intro e he
    rw [show (cond e && !e.isOpen && (mod e).isOpen) = false from hsafe e he]
    simp

theorem find?_map_comm {f : Entry → Entry} {p : Entry → Bool}
    (hp : ∀ a, p (f a) = p a) (l : List Entry) :
    (l.map f).find? p = (l.find? p).map f := by
  induction l with
  | nil => simp
  | cons a t ih =>
    simp only [List.map_cons, List.find?_cons]
    rw [hp a]
    by_cases hpa : p a = true
    · rw [hpa]; rfl
    · rw [Bool.not_eq_true] at hpa
      rw [hpa]
      exact ih

theorem find?_entry_eq_of_mem {l : List Entry} {e : Entry} {i k : Nat}
    (hN : (l.map Entry.id).Nodup) (he : e ∈ l) (hid : e.id = i)
    (hkey : e.api_key_id = k) :
    l.find? (fun x => x.id == i && x.api_key_id == k) = some e := by
  induction l with
  | nil => cases he
  | cons a t ih =>
    rw [List.map_cons, List.nodup_cons] at hN
    rw [List.find?_cons]
    by_cases hpa : (a.id == i && a.api_key_id == k) = true
    · rw [hpa]
      rcases List.mem_cons.mp he with rfl | het
      · rfl
      · exfalso
        simp only [Bool.and_eq_true, beq_iff_eq] at hpa
        exact hN.1 (by
          rw [hpa.1, ← hid]
          exact List.mem_map_of_mem Entry.id het)
    · rw [Bool.not_eq_true] at hpa
      rw [hpa]
      rcases List.mem_cons.mp he with rfl | het
      · exfalso
        rw [← Bool.not_eq_true] at hpa
        simp only [Bool.and_eq_true, beq_iff_eq] at hpa
        exact hpa ⟨hid, hkey⟩
      · exact ih hN.2 het

/-- Under unique ids, the SELECT by id and owner finds exactly a member
matching both. -/
theorem getEntry_eq_of_mem {db : DB} {e : Entry} {i k : Nat} (hwf : WFdb db)
    (he : e ∈ db.entries) (hid : e.id = i) (hkey : e.api_key_id = k) :
    getEntry db i k = some e :=
  find?_entry_eq_of_mem hwf.1 he hid hkey

instance (db : DB) : Decidable (WFdb db) := by
  unfold WFdb
  infer_instance

/-! ### Claim C1: the single-open-entry invariant is preserved -/

/-- Claim C1. For every owner, after every committed operation (start, stop,
edit, delete, importClosed, shiftStart, editLinked) and hence after every
sequence of these operations applied to a well-formed state satisfying the
invariant, at most one time entry belonging to that owner has end = null. -/
theorem singleOpenEntryInvariantPreserved (ops : List Op) (db : DB)
    (hwf : WFdb db) (hinv : OneOpenPerOwner db) :
    OneOpenPerOwner (ops.foldl applyOp db) :=
  (foldl_applyOp_good ops db ⟨hwf, hinv⟩).2

theorem singleOpenEntryInvariantPreserved_witness :
    WFdb ⟨[⟨1, 1, "A"⟩], [], 1⟩ ∧ OneOpenPerOwner ⟨[⟨1, 1, "A"⟩], [], 1⟩ ∧
      OneOpenPerOwner
        ([Op.post 1 1 none none 0, Op.post 1 1 none none 7, Op.stop 1 2 9].foldl applyOp
          ⟨[⟨1, 1, "A"⟩], [], 1⟩) :=
  ⟨by decide, fun k => by simp [openCount],
    singleOpenEntryInvariantPreserved _ _ (by decide) (fun k => by simp [openCount])⟩

/-! ### Claim C2: start while an entry is open closes it and opens a new one -/

/-- Claim C2. On a state where the owner has exactly one entry, which is open,
start with an owned project closes that entry with end equal to the new start
instant and inserts one fresh open entry in the same transaction: afterwards
the owner has exactly two entries, the first closed at the second's start and
the second open; never zero, one or three. -/
theorem startWhileOpenYieldsExactlyTwoEntries (db : DB) (k pid : Nat) (pr : Project)
    (e0 : Entry) (now : Int)
    (hproj : findProject db pid k = some pr)
    (hone : db.entries.filter (fun e => e.api_key_id == k) = [e0])
    (hopen : e0.isOpen = true) :
    ∃ db2,
      postTimeEntries db k pid none none now
          = .ok (db2, ⟨db.nextEntryId, k, pid, now, none⟩) ∧
      db2.entries.filter (fun e => e.api_key_id == k)
        = [{ e0 with end_time := some now }, ⟨db.nextEntryId, k, pid, now, none⟩] ∧
      (db2.entries.filter (fun e => e.api_key_id == k)).length = 2 := by
  have hU := @sqlUpdateEntries_eq_ok_of db (fun e => e.api_key_id == k && e.isOpen)
      (fun e => { e with end_time := some now }) (by intro e _; simp [Entry.isOpen])
  have hany : ((db.entries.map fun e =>
      if e.api_key_id == k && e.isOpen then { e with end_time := some now } else e).any
        fun b => b.api_key_id == k && b.isOpen) = false := by
    rw [List.any_eq_false]
    intro b hb
    obtain ⟨a, ha, rfl⟩ := List.mem_map.mp hb
    by_cases hc : (a.api_key_id == k && a.isOpen) = true
    · rw [if_pos hc]; simp [Entry.isOpen]
    · rw [if_neg hc]; exact hc
  have hins : sqlInsertEntry
      { db with entries := db.entries.map fun e =>
          if e.api_key_id == k && e.isOpen then { e with end_time := some now } else e }
      k pid now none
      = .ok ({ db with
                entries := (db.entries.map fun e =>
                  if e.api_key_id == k && e.isOpen then { e with end_time := some now } else e)
                  ++ [⟨db.nextEntryId, k, pid, now, none⟩],
                nextEntryId := db.nextEntryId + 1 }, db.nextEntryId) := by
    unfold sqlInsertEntry
    rw [if_neg (by simpa using hany)]
  have he0 : e0 ∈ db.entries.filter fun e => e.api_key_id == k := by
    rw [hone]; exact List.mem_singleton.mpr rfl
  have hk0pre := List.of_mem_filter he0
  have hk0 : (e0.api_key_id == k) = true := hk0pre
  have hfil : ((db.entries.map fun e =>
      if e.api_key_id == k && e.isOpen then { e with end_time := some now } else e)
      ++ [(⟨db.nextEntryId, k, pid, now, none⟩ : Entry)]).filter (fun e => e.api_key_id == k)
      = [{ e0 with end_time := some now }, ⟨db.nextEntryId, k, pid, now, none⟩] := by
    rw [List.filter_append, List.filter_map]
    have hcongr : db.entries.filter
        ((fun e => e.api_key_id == k) ∘ fun e : Entry =>
          if e.api_key_id == k && e.isOpen then { e with end_time := some now } else e)
        = db.entries.filter fun e => e.api_key_id == k := by
      apply List.filter_congr
      intro a _
      simp only [Function.comp_apply]
      by_cases hc : (a.api_key_id == k && a.isOpen) = true
      · rw [if_pos hc]
      · rw [if_neg hc]
    rw [hcongr, hone]
    have hkeq : e0.api_key_id = k := by simpa using hk0
    simp [hkeq, hopen]
  refine ⟨{ db with
             entries := (db.entries.map fun e =>
               if e.api_key_id == k && e.isOpen then { e with end_time := some now } else e)
               ++ [⟨db.nextEntryId, k, pid, now, none⟩],
             nextEntryId := db.nextEntryId + 1 }, ?_, ?_, ?_⟩
  · simp only [postTimeEntries, hproj, hU, Bind.bind, Except.bind, hins]
  · exact hfil
  · show (((db.entries.map fun e =>
      if e.api_key_id == k && e.isOpen then { e with end_time := some now } else e)
      ++ [(⟨db.nextEntryId, k, pid, now, none⟩ : Entry)]).filter
        (fun e => e.api_key_id == k)).length = 2
    rw [hfil]
    rfl

theorem startWhileOpenYieldsExactlyTwoEntries_witness :
    findProject ⟨[⟨1, 1, "A"⟩, ⟨2, 1, "B"⟩], [⟨1, 1, 1, 100, none⟩], 2⟩ 2 1
        = some ⟨2, 1, "B"⟩ ∧
    (⟨[⟨1, 1, "A"⟩, ⟨2, 1, "B"⟩], [⟨1, 1, 1, 100, none⟩], 2⟩ : DB).entries.filter
        (fun e => e.api_key_id == 1) = [⟨1, 1, 1, 100, none⟩] ∧
    (⟨1, 1, 1, 100, none⟩ : Entry).isOpen = true ∧
    (∃ db2,
      postTimeEntries ⟨[⟨1, 1, "A"⟩, ⟨2, 1, "B"⟩], [⟨1, 1, 1, 100, none⟩], 2⟩ 1 2 none none 500
          = .ok (db2, ⟨2, 1, 2, 500, none⟩) ∧
      db2.entries.filter (fun e => e.api_key_id == 1)
        = [⟨1, 1, 1, 100, some 500⟩, ⟨2, 1, 2, 500, none⟩] ∧
      (db2.entries.filter (fun e => e.api_key_id == 1)).length = 2) :=
  ⟨rfl, rfl, rfl,
    startWhileOpenYieldsExactlyTwoEntries ⟨[⟨1, 1, "A"⟩, ⟨2, 1, "B"⟩], [⟨1, 1, 1, 100, none⟩], 2⟩
      1 2 ⟨2, 1, "B"⟩ ⟨1, 1, 1, 100, none⟩ 500 rfl rfl rfl⟩

/-! ### Claim C6: stop closes only an owned open entry, and only once -/

/-- Claim C6. stop sets end only when the entry exists, belongs to the caller
and is open, and otherwise fails NotFound without mutating state; stopping the
same entry twice succeeds once, and the second call fails NotFound leaving the
end at the value the first call wrote. -/
theorem stopIdempotentFailure (db : DB) (k i : Nat) (e : Entry) (now1 now2 : Int)
    (hwf : WFdb db) (he : e ∈ db.entries) (hid : e.id = i)
    (hkey : e.api_key_id = k) (hopen : e.isOpen = true) :
    (∀ db0 : DB, (∀ x ∈ db0.entries, ¬(x.id = i ∧ x.api_key_id = k ∧ x.isOpen = true)) →
      stopTimeEntry db0 k i now2 = .error .notFound ∧
        commit db0 (stopTimeEntry db0 k i now2) = db0) ∧
    stopTimeEntry db k i now1
      = .ok ({ db with entries := db.entries.map fun x =>
          if x.id == i && x.api_key_id == k && x.isOpen
          then { x with end_time := some now1 } else x }, now1) ∧
    getEntry (commit db (stopTimeEntry db k i now1)) i k
      = some { e with end_time := some now1 } ∧
    stopTimeEntry (commit db (stopTimeEntry db k i now1)) k i now2
      = .error .notFound := by
  have hgen : ∀ db0 : DB,
      (∀ x ∈ db0.entries, ¬(x.id = i ∧ x.api_key_id = k ∧ x.isOpen = true)) →
      stopTimeEntry db0 k i now2 = .error .notFound ∧
        commit db0 (stopTimeEntry db0 k i now2) = db0 := by
    intro db0 hno
    have hU := @sqlUpdateEntries_eq_ok_of db0
        (fun x => x.id == i && x.api_key_id == k && x.isOpen)
        (fun x => { x with end_time := some now2 }) (by intro x _; simp [Entry.isOpen])
    have hcnt : (db0.entries.countP fun x => x.id == i && x.api_key_id == k && x.isOpen) = 0 := by
      apply List.countP_eq_zero.mpr
      intro x hx hp
      simp only [Bool.and_eq_true, beq_iff_eq] at hp
      exact hno x hx ⟨hp.1.1, hp.1.2, hp.2⟩
    have hres : stopTimeEntry db0 k i now2 = .error .notFound := by
      simp only [stopTimeEntry, hU, hcnt]
      rfl
    exact ⟨hres, by rw [hres]; rfl⟩
  have hU1 := @sqlUpdateEntries_eq_ok_of db
      (fun x => x.id == i && x.api_key_id == k && x.isOpen)
      (fun x => { x with end_time := some now1 }) (by intro x _; simp [Entry.isOpen])
  have hpe : (e.id == i && e.api_key_id == k && e.isOpen) = true := by
    simp [hid, hkey, hopen]
  have hne : ((db.entries.countP fun x => x.id == i && x.api_key_id == k && x.isOpen) == 0)
      = false := by
    have hcnt1 : 0 < db.entries.countP fun x => x.id == i && x.api_key_id == k && x.isOpen :=
      List.countP_pos_iff.mpr ⟨e, he, hpe⟩
    rw [beq_eq_false_iff_ne]
    omega
  have hres1 : stopTimeEntry db k i now1
      = .ok ({ db with entries := db.entries.map fun x =>
          if x.id == i && x.api_key_id == k && x.isOpen
          then { x with end_time := some now1 } else x }, now1) := by
    simp only [stopTimeEntry, hU1, hne]
    rfl
  have hcommit : commit db (stopTimeEntry db k i now1)
      = { db with entries := db.entries.map fun x =>
          if x.id == i && x.api_key_id == k && x.isOpen
          then { x with end_time := some now1 } else x } := by
    rw [hres1]; rfl
  refine ⟨hgen, hres1, ?_, ?_⟩
  · rw [hcommit]
    have hfe : (if e.id == i && e.api_key_id == k && e.isOpen
        then { e with end_time := some now1 } else e) = { e with end_time := some now1 } := by
      rw [if_pos hpe]
    have hmem : ({ e with end_time := some now1 } : Entry) ∈ db.entries.map fun x =>
        if x.id == i && x.api_key_id == k && x.isOpen
        then { x with end_time := some now1 } else x :=
      List.mem_map.mpr ⟨e, he, hfe⟩
    have hwfN : ((db.entries.map fun x =>
        if x.id == i && x.api_key_id == k && x.isOpen
        then { x with end_time := some now1 } else x).map Entry.id).Nodup := by
      have hids : ((db.entries.map fun x =>
          if x.id == i && x.api_key_id == k && x.isOpen
          then { x with end_time := some now1 } else x).map Entry.id)
          = db.entries.map Entry.id := by
        rw [List.map_map]
        apply List.map_congr_left
        intro a _
        by_cases hc : (a.id == i && a.api_key_id == k && a.isOpen) = true
        · rw [Function.comp_apply, if_pos hc]
        · rw [Function.comp_apply, if_neg hc]
      rw [hids]
      exact hwf.1
    have hwfB : ∀ x ∈ (db.entries.map fun x =>
        if x.id == i && x.api_key_id == k && x.isOpen
        then { x with end_time := some now1 } else x), x.id < db.nextEntryId := by
      intro x hx
      obtain ⟨a, ha, rfl⟩ := List.mem_map.mp hx
      have hlt := hwf.2 a ha
      by_cases hc : (a.id == i && a.api_key_id == k && a.isOpen) = true
      · rw [if_pos hc]; exact hlt
      · rw [if_neg hc]; exact hlt
    exact @getEntry_eq_of_mem
      { db with entries := db.entries.map fun x =>
          if x.id == i && x.api_key_id == k && x.isOpen
          then { x with end_time := some now1 } else x }
      { e with end_time := some now1 } i k ⟨hwfN, hwfB⟩ hmem hid hkey
  · rw [hcommit]
    refine (hgen _ ?_).1
    intro x hx
    obtain ⟨a, ha, rfl⟩ := List.mem_map.mp hx
    by_cases hc : (a.id == i && a.api_key_id == k && a.isOpen) = true
    · rw [if_pos hc]
      rintro ⟨-, -, hopen2⟩
      simp [Entry.isOpen] at hopen2
    · rw [if_neg hc]
      rintro ⟨h1, h2, h3⟩
      simp only [Bool.and_eq_true, beq_iff_eq] at hc
      exact hc ⟨⟨h1, h2⟩, h3⟩

theorem stopIdempotentFailure_witness :
    WFdb ⟨[⟨1, 1, "A"⟩], [⟨1, 1, 1, 100, none⟩], 2⟩ ∧
    (⟨1, 1, 1, 100, none⟩ : Entry) ∈
      (⟨[⟨1, 1, "A"⟩], [⟨1, 1, 1, 100, none⟩], 2⟩ : DB).entries ∧
    (stopTimeEntry ⟨[⟨1, 1, "A"⟩], [⟨1, 1, 1, 100, none⟩], 2⟩ 1 1 400
      = .ok ({ (⟨[⟨1, 1, "A"⟩], [⟨1, 1, 1, 100, none⟩], 2⟩ : DB) with
          entries := (⟨[⟨1, 1, "A"⟩], [⟨1, 1, 1, 100, none⟩], 2⟩ : DB).entries.map fun x =>
            if x.id == 1 && x.api_key_id == 1 && x.isOpen
            then { x with end_time := some 400 } else x }, 400)) ∧
    stopTimeEntry
        (commit ⟨[⟨1, 1, "A"⟩], [⟨1, 1, 1, 100, none⟩], 2⟩
          (stopTimeEntry ⟨[⟨1, 1, "A"⟩], [⟨1, 1, 1, 100, none⟩], 2⟩ 1 1 400)) 1 1 450
      = .error .notFound := by
  have h := stopIdempotentFailure ⟨[⟨1, 1, "A"⟩], [⟨1, 1, 1, 100, none⟩], 2⟩ 1 1
    ⟨1, 1, 1, 100, none⟩ 400 450 (by decide) (by decide) rfl rfl rfl
  exact ⟨by decide, by decide, h.2.1, h.2.2.2⟩

/-! ### Claims C8 and C9: importing a closed entry -/

/-- Shared computation: the import branch of POST /api/time-entries succeeds
on valid ordered bounds and appends exactly one closed entry. -/
theorem postTimeEntries_import_ok (db : DB) (k pid : Nat) (pr : Project)
    (s e now : Int) (hproj : findProject db pid k = some pr) (hlt : s < e) :
    postTimeEntries db k pid (some (.valid s)) (some (.valid e)) now
      = .ok ({ db with
                entries := db.entries ++ [⟨db.nextEntryId, k, pid, s, some e⟩],
                nextEntryId := db.nextEntryId + 1 },
             ⟨db.nextEntryId, k, pid, s, some e⟩) := by
  have hins : sqlInsertEntry db k pid s (some e)
      = .ok ({ db with
                entries := db.entries ++ [⟨db.nextEntryId, k, pid, s, some e⟩],
                nextEntryId := db.nextEntryId + 1 }, db.nextEntryId) := by
    unfold sqlInsertEntry
    rw [if_neg (by simp)]
  simp only [postTimeEntries, hproj, parseDate, hins]
  rw [if_neg (by omega)]

/-- Claim C8. importClosed (POST with both bounds supplied) fails Validation
when either bound is malformed or when start ≥ end, mutating nothing in
either case; on success it inserts one fully-closed entry and leaves every
existing entry of the owner, any open entry included, unchanged (the table
is exactly the old table plus the one new closed row). -/
theorem importClosedValidation (db : DB) (k pid : Nat) (pr : Project)
    (ds de : DateStr) (now : Int) (hproj : findProject db pid k = some pr) :
    ((parseDate ds = none ∨ parseDate de = none) →
      postTimeEntries db k pid (some ds) (some de) now = .error .validation ∧
        commit db (postTimeEntries db k pid (some ds) (some de) now) = db) ∧
    (∀ s e : Int, parseDate ds = some s → parseDate de = some e → e ≤ s →
      postTimeEntries db k pid (some ds) (some de) now = .error .validation ∧
        commit db (postTimeEntries db k pid (some ds) (some de) now) = db) ∧
    (∀ s e : Int, parseDate ds = some s → parseDate de = some e → s < e →
      postTimeEntries db k pid (some ds) (some de) now
        = .ok ({ db with
                  entries := db.entries ++ [⟨db.nextEntryId, k, pid, s, some e⟩],
                  nextEntryId := db.nextEntryId + 1 },
               ⟨db.nextEntryId, k, pid, s, some e⟩)) := by
  refine ⟨?_, ?_, ?_⟩
  · rintro (hds | hde)
    · have hres : postTimeEntries db k pid (some ds) (some de) now = .error .validation := by
        simp only [postTimeEntries, hproj, hds]
      exact ⟨hres, by rw [hres]; rfl⟩
    · have hres : postTimeEntries db k pid (some ds) (some de) now = .error .validation := by
        cases hds : parseDate ds with
        | none => simp only [postTimeEntries, hproj, hds]
        | some s => simp only [postTimeEntries, hproj, hds, hde]
      exact ⟨hres, by rw [hres]; rfl⟩
  · intro s e hds hde hle
    have hres : postTimeEntries db k pid (some ds) (some de) now = .error .validation := by
      simp only [postTimeEntries, hproj, hds, hde]
      rw [if_pos (by omega)]
    exact ⟨hres, by rw [hres]; rfl⟩
  · intro s e hds hde hlt
    cases ds with
    | malformed => exact absurd hds (by simp [parseDate])
    | valid s0 =>
      cases de with
      | malformed => exact absurd hde (by simp [parseDate])
      | valid e0 =>
        obtain rfl : s0 = s := by simpa [parseDate] using hds
        obtain rfl : e0 = e := by simpa [parseDate] using hde
        exact postTimeEntries_import_ok db k pid pr s0 e0 now hproj hlt

theorem importClosedValidation_witness :
    findProject ⟨[⟨1, 1, "A"⟩], [⟨1, 1, 1, 0, none⟩], 2⟩ 1 1 = some ⟨1, 1, "A"⟩ ∧
    (postTimeEntries ⟨[⟨1, 1, "A"⟩], [⟨1, 1, 1, 0, none⟩], 2⟩ 1 1
        (some .malformed) (some (.valid 20)) 99 = .error .validation ∧
      commit ⟨[⟨1, 1, "A"⟩], [⟨1, 1, 1, 0, none⟩], 2⟩
        (postTimeEntries ⟨[⟨1, 1, "A"⟩], [⟨1, 1, 1, 0, none⟩], 2⟩ 1 1
          (some .malformed) (some (.valid 20)) 99)
        = ⟨[⟨1, 1, "A"⟩], [⟨1, 1, 1, 0, none⟩], 2⟩) ∧
    (postTimeEntries ⟨[⟨1, 1, "A"⟩], [⟨1, 1, 1, 0, none⟩], 2⟩ 1 1
        (some (.valid 30)) (some (.valid 20)) 99 = .error .validation) ∧
    (postTimeEntries ⟨[⟨1, 1, "A"⟩], [⟨1, 1, 1, 0, none⟩], 2⟩ 1 1
        (some (.valid 10)) (some (.valid 20)) 99
      = .ok (⟨[⟨1, 1, "A"⟩], [⟨1, 1, 1, 0, none⟩, ⟨2, 1, 1, 10, some 20⟩], 3⟩,
             ⟨2, 1, 1, 10, some 20⟩)) := by
  have hmal := (importClosedValidation ⟨[⟨1, 1, "A"⟩], [⟨1, 1, 1, 0, none⟩], 2⟩ 1 1
    ⟨1, 1, "A"⟩ .malformed (.valid 20) 99 rfl).1 (Or.inl rfl)
  have hord := ((importClosedValidation ⟨[⟨1, 1, "A"⟩], [⟨1, 1, 1, 0, none⟩], 2⟩ 1 1
    ⟨1, 1, "A"⟩ (.valid 30) (.valid 20) 99 rfl).2.1 30 20 rfl rfl (by omega)).1
  have hok := (importClosedValidation ⟨[⟨1, 1, "A"⟩], [⟨1, 1, 1, 0, none⟩], 2⟩ 1 1
    ⟨1, 1, "A"⟩ (.valid 10) (.valid 20) 99 rfl).2.2 10 20 rfl rfl (by omega)
  exact ⟨rfl, hmal, hord, hok⟩

/-- Claim C9. importClosed of bounds t0 < t1 followed by listing all entries
returns a view row with start = t0, stop = t1 and duration the whole-second
floor of t1 - t0, while every open entry in the listing has duration -1. -/
theorem importRoundTrip (db : DB) (k pid : Nat) (pr pr2 : Project)
    (t0 t1 now : Int) (hproj : findProject db pid k = some pr)
    (hjoin : db.projects.find? (fun p => p.id == pid) = some pr2)
    (hlt : t0 < t1) :
    ∃ db2,
      postTimeEntries db k pid (some (.valid t0)) (some (.valid t1)) now
          = .ok (db2, ⟨db.nextEntryId, k, pid, t0, some t1⟩) ∧
      (⟨db.nextEntryId, pid, t0, some t1, (t1 - t0).fdiv 1000, pr2.name⟩ : EntryView)
        ∈ getTimeEntriesAll db2 k ∧
      (∀ v ∈ getTimeEntriesAll db2 k, v.stop = none → v.duration = -1) := by
  refine ⟨{ db with
              entries := db.entries ++ [⟨db.nextEntryId, k, pid, t0, some t1⟩],
              nextEntryId := db.nextEntryId + 1 },
    postTimeEntries_import_ok db k pid pr t0 t1 now hproj hlt, ?_, ?_⟩
  · have hmem1 : (⟨db.nextEntryId, k, pid, t0, some t1⟩ : Entry) ∈
        (db.entries ++ [(⟨db.nextEntryId, k, pid, t0, some t1⟩ : Entry)]).filter
          (fun e => e.api_key_id == k) := by
      apply List.mem_filter.mpr
      exact ⟨List.mem_append_right _ (List.mem_singleton.mpr rfl), by simp⟩
    have hf : (db.projects.find? fun p =>
        p.id == (⟨db.nextEntryId, k, pid, t0, some t1⟩ : Entry).project_id).map
          (fun p => ((⟨db.nextEntryId, k, pid, t0, some t1⟩ : Entry), p.name))
        = some (⟨db.nextEntryId, k, pid, t0, some t1⟩, pr2.name) := by
      rw [show (fun p : Project =>
        p.id == (⟨db.nextEntryId, k, pid, t0, some t1⟩ : Entry).project_id)
        = (fun p : Project => p.id == pid) from rfl, hjoin]
      rfl
    have hmem2 : ((⟨db.nextEntryId, k, pid, t0, some t1⟩ : Entry), pr2.name) ∈
        ((db.entries ++ [(⟨db.nextEntryId, k, pid, t0, some t1⟩ : Entry)]).filter
          (fun e => e.api_key_id == k)).filterMap
          (fun e => (db.projects.find? fun p => p.id == e.project_id).map
            fun p => (e, p.name)) :=
      List.mem_filterMap.mpr ⟨⟨db.nextEntryId, k, pid, t0, some t1⟩, hmem1, hf⟩
    exact List.mem_map_of_mem
      (fun ep : Entry × String =>
        ({ id := ep.1.id, project_id := ep.1.project_id, start := ep.1.start_time,
           stop := ep.1.end_time,
           duration := match ep.1.end_time with
             | some te => (te - ep.1.start_time).fdiv 1000
             | none => -1,
           name := ep.2 } : EntryView))
      ((List.mem_insertionSort _).mpr hmem2)
  · intro v hv hstop
    obtain ⟨ep, -, hfv⟩ := List.mem_map.mp hv
    subst hfv
    have h1 : ep.1.end_time = none := hstop
    show (match ep.1.end_time with
      | some te => (te - ep.1.start_time).fdiv 1000
      | none => -1) = -1
    rw [h1]

theorem importRoundTrip_witness :
    findProject ⟨[⟨1, 1, "A"⟩], [⟨1, 1, 1, 0, none⟩], 2⟩ 1 1 = some ⟨1, 1, "A"⟩ ∧
    (⟨[⟨1, 1, "A"⟩], [⟨1, 1, 1, 0, none⟩], 2⟩ : DB).projects.find?
        (fun p => p.id == 1) = some ⟨1, 1, "A"⟩ ∧
    (10 : Int) < 20 ∧
    (∃ db2,
      postTimeEntries ⟨[⟨1, 1, "A"⟩], [⟨1, 1, 1, 0, none⟩], 2⟩ 1 1
          (some (.valid 10)) (some (.valid 20)) 99
          = .ok (db2, ⟨2, 1, 1, 10, some 20⟩) ∧
      (⟨2, 1, 10, some 20, 0, "A"⟩ : EntryView) ∈ getTimeEntriesAll db2 1 ∧
      (∀ v ∈ getTimeEntriesAll db2 1, v.stop = none → v.duration = -1)) :=
  ⟨rfl, rfl, by omega,
    importRoundTrip ⟨[⟨1, 1, "A"⟩], [⟨1, 1, 1, 0, none⟩], 2⟩ 1 1 ⟨1, 1, "A"⟩ ⟨1, 1, "A"⟩
      10 20 99 rfl rfl (by omega)⟩

/-! ### Claim C3: shiftStart shifts both linked boundaries or nothing -/

/-- Claim C3. shiftStart with a positive minute count and a closed, owned
linked previous entry decreases the entry's start_time and the previous
entry's end_time by exactly minutes * 60000 milliseconds in one transaction;
when either resulting interval would violate start < end the whole operation
fails Validation and neither entry is modified. -/
theorem shiftStartLinkedAtomic (db : DB) (k entryId prevId : Nat) (e2 e1 : Entry)
    (minutes pe : Int)
    (hm : 0 < minutes)
    (hcur : getEntry db entryId k = some e2)
    (hprev : getEntry db prevId k = some e1)
    (he1e : e1.end_time = some pe)
    (hne : entryId ≠ prevId) :
    ((∀ te, e2.end_time = some te → e2.start_time - minutes * 60000 < te) →
      e1.start_time < pe - minutes * 60000 →
      patchShiftStart db k entryId minutes (some prevId)
        = .ok ({ db with entries := db.entries.map fun x =>
            if x.id == prevId && x.api_key_id == k then
              { x with end_time := some (pe - minutes * 60000) }
            else if x.id == entryId && x.api_key_id == k then
              { x with start_time := e2.start_time - minutes * 60000 }
            else x }, e2.start_time - minutes * 60000)) ∧
    (∀ te, e2.end_time = some te → te ≤ e2.start_time - minutes * 60000 →
      patchShiftStart db k entryId minutes (some prevId) = .error .validation ∧
        commit db (patchShiftStart db k entryId minutes (some prevId)) = db) ∧
    ((∀ te, e2.end_time = some te → e2.start_time - minutes * 60000 < te) →
      pe - minutes * 60000 ≤ e1.start_time →
      patchShiftStart db k entryId minutes (some prevId) = .error .validation ∧
        commit db (patchShiftStart db k entryId minutes (some prevId)) = db) := by
  refine ⟨?_, ?_, ?_⟩
  · intro hv2 hv1
    have hc1 : (e2.end_time.elim false
        fun te => decide (e2.start_time - minutes * 60000 ≥ te)) = false := by
      cases he2 : e2.end_time with
      | none => rfl
      | some te =>
        show decide (e2.start_time - minutes * 60000 ≥ te) = false
        exact decide_eq_false (by have := hv2 te he2; omega)
    have hU1 := @sqlUpdateEntries_eq_ok_of db
        (fun x => x.id == prevId && x.api_key_id == k)
        (fun x => { x with end_time := some (pe - minutes * 60000) })
        (by intro x _; simp [Entry.isOpen])
    have hU2 := @sqlUpdateEntries_eq_ok_of
        { db with entries := db.entries.map fun x =>
            if x.id == prevId && x.api_key_id == k then
              { x with end_time := some (pe - minutes * 60000) }
            else x }
        (fun x => x.id == entryId && x.api_key_id == k)
        (fun x => { x with start_time := e2.start_time - minutes * 60000 })
        (by intro x _; cases hov : x.end_time <;> simp [Entry.isOpen, hov])
    have hmaps : ((db.entries.map fun x =>
        if x.id == prevId && x.api_key_id == k then
          { x with end_time := some (pe - minutes * 60000) }
        else x).map fun x =>
          if x.id == entryId && x.api_key_id == k then
            { x with start_time := e2.start_time - minutes * 60000 }
          else x)
        = db.entries.map fun x =>
            if x.id == prevId && x.api_key_id == k then
              { x with end_time := some (pe - minutes * 60000) }
            else if x.id == entryId && x.api_key_id == k then
              { x with start_time := e2.start_time - minutes * 60000 }
            else x := by
      rw [List.map_map]
      apply List.map_congr_left
      intro a _
      simp only [Function.comp_apply]
      by_cases h1 : (a.id == prevId && a.api_key_id == k) = true <;>
        by_cases h2 : (a.id == entryId && a.api_key_id == k) = true
      · exfalso
        simp only [Bool.and_eq_true, beq_iff_eq] at h1 h2
        omega
      · simp [h1, h2]
      · simp [h1, h2]
      · simp [h1, h2]
    simp only [patchShiftStart, hcur, hprev, he1e]
    rw [if_neg (by omega), if_neg (by rw [hc1]; simp), if_neg (by omega), hU1]
    simp only [Bind.bind, Except.bind]
    rw [hU2, show ({ db with entries := db.entries.map fun x =>
      if x.id == prevId && x.api_key_id == k then
        { x with end_time := some (pe - minutes * 60000) }
      else x } : DB).entries = db.entries.map fun x =>
        if x.id == prevId && x.api_key_id == k then
          { x with end_time := some (pe - minutes * 60000) }
        else x from rfl, hmaps]
    rfl
  · intro te he2 hle
    have hres : patchShiftStart db k entryId minutes (some prevId) = .error .validation := by
      simp only [patchShiftStart, hcur, he2]
      rw [if_neg (by omega), if_pos (by show decide _ = true; exact decide_eq_true (by omega))]
    exact ⟨hres, by rw [hres]; rfl⟩
  · intro hv2 hge
    have hc1 : (e2.end_time.elim false
        fun te => decide (e2.start_time - minutes * 60000 ≥ te)) = false := by
      cases he2 : e2.end_time with
      | none => rfl
      | some te =>
        show decide (e2.start_time - minutes * 60000 ≥ te) = false
        exact decide_eq_false (by have := hv2 te he2; omega)
    have hres : patchShiftStart db k entryId minutes (some prevId) = .error .validation := by
      simp only [patchShiftStart, hcur, hprev, he1e]
      rw [if_neg (by omega), if_neg (by rw [hc1]; simp), if_pos (by omega)]
    exact ⟨hres, by rw [hres]; rfl⟩

theorem shiftStartLinkedAtomic_witness :
    (0 : Int) < 5 ∧
    getEntry ⟨[⟨1, 1, "A"⟩], [⟨1, 1, 1, 50000000, some 60000000⟩,
      ⟨2, 1, 1, 60000000, none⟩], 3⟩ 2 1 = some ⟨2, 1, 1, 60000000, none⟩ ∧
    getEntry ⟨[⟨1, 1, "A"⟩], [⟨1, 1, 1, 50000000, some 60000000⟩,
      ⟨2, 1, 1, 60000000, none⟩], 3⟩ 1 1 = some ⟨1, 1, 1, 50000000, some 60000000⟩ ∧
    patchShiftStart ⟨[⟨1, 1, "A"⟩], [⟨1, 1, 1, 50000000, some 60000000⟩,
        ⟨2, 1, 1, 60000000, none⟩], 3⟩ 1 2 5 (some 1)
      = .ok (⟨[⟨1, 1, "A"⟩], [⟨1, 1, 1, 50000000, some 59700000⟩,
          ⟨2, 1, 1, 59700000, none⟩], 3⟩, 59700000) := by
  have h := (shiftStartLinkedAtomic ⟨[⟨1, 1, "A"⟩], [⟨1, 1, 1, 50000000, some 60000000⟩,
      ⟨2, 1, 1, 60000000, none⟩], 3⟩ 1 2 1 ⟨2, 1, 1, 60000000, none⟩
      ⟨1, 1, 1, 50000000, some 60000000⟩ 5 60000000 (by omega) rfl rfl rfl
      (by omega)).1 (by intro te hte; exact Option.noConfusion hte) (by decide)
  refine ⟨by omega, rfl, rfl, ?_⟩
  rw [h]
  rfl

/-! ### Claim C7: edit recomputes effective bounds, Validation and Conflict -/

/-- Normal form of the edit handler once the entry is found, any provided
project is owned, and the provided dates are well formed. -/
theorem putTimeEntry_normalize (db : DB) (k i : Nat) (existingEntry : Entry)
    (s? : Option Int) (e? : Option (Option Int)) (pid? : Option Nat)
    (hsome : ¬(s? = none ∧ e? = none ∧ pid? = none))
    (hget : getEntry db i k = some existingEntry)
    (hpo : ∀ pid, pid? = some pid → (findProject db pid k).isSome = true) :
    putTimeEntry db k i (s?.map .valid) (e?.map (Option.map .valid)) pid?
      = (if (match e? with
              | none => existingEntry.end_time
              | some v => v).elim false
            (fun te => decide (s?.getD existingEntry.start_time ≥ te)) then
          .error .validation
        else if (match e? with
              | none => existingEntry.end_time
              | some v => v).isNone &&
            db.entries.any (fun b => b.api_key_id == k && b.isOpen && b.id != i) then
          .error .conflict
        else
          match sqlUpdateEntries db (fun e => e.id == i && e.api_key_id == k)
              (editMod s? e? pid?) with
          | .ok (_db1, changes) =>
            if changes == 0 then .error .notFound else .ok (_db1, ())
          | .error _ => .error .conflict) := by
  rcases s? with _ | s <;> rcases e? with _ | (_ | t) <;> rcases pid? with _ | pid
  case none.none.none => exact absurd ⟨rfl, rfl, rfl⟩ hsome
  all_goals (
    simp only [putTimeEntry, hget]
    first
    | rfl
    | (obtain ⟨pr0, hpr⟩ := Option.isSome_iff_exists.mp (hpo _ rfl)
       simp only [hpr]
       rfl))

/-- Claim C7. edit computes the effective start and end with unspecified
fields keeping their current values; it fails Validation when an effective
end exists and the effective start is not before it; it fails Conflict,
mutating nothing, when the effective end is null while a different entry of
the same owner is already open; otherwise it rewrites exactly the provided
fields of the addressed entry. -/
theorem editEffectiveBounds (db : DB) (k i : Nat) (existingEntry : Entry)
    (s? : Option Int) (e? : Option (Option Int)) (pid? : Option Nat)
    (hsome : ¬(s? = none ∧ e? = none ∧ pid? = none))
    (hget : getEntry db i k = some existingEntry)
    (hpo : ∀ pid, pid? = some pid → (findProject db pid k).isSome = true) :
    ((∀ te, (match e? with | none => existingEntry.end_time | some v => v) = some te →
        te ≤ s?.getD existingEntry.start_time) →
      (match e? with | none => existingEntry.end_time | some v => v).isSome = true →
      putTimeEntry db k i (s?.map .valid) (e?.map (Option.map .valid)) pid?
          = .error .validation ∧
        commit db (putTimeEntry db k i (s?.map .valid) (e?.map (Option.map .valid)) pid?)
          = db) ∧
    ((match e? with | none => existingEntry.end_time | some v => v) = none →
      (∃ b ∈ db.entries, b.api_key_id = k ∧ b.isOpen = true ∧ b.id ≠ i) →
      putTimeEntry db k i (s?.map .valid) (e?.map (Option.map .valid)) pid?
          = .error .conflict ∧
        commit db (putTimeEntry db k i (s?.map .valid) (e?.map (Option.map .valid)) pid?)
          = db) ∧
    ((∀ te, (match e? with | none => existingEntry.end_time | some v => v) = some te →
        s?.getD existingEntry.start_time < te) →
      ((match e? with | none => existingEntry.end_time | some v => v) = none →
        ∀ b ∈ db.entries, b.api_key_id = k → b.isOpen = true → b.id = i) →
      putTimeEntry db k i (s?.map .valid) (e?.map (Option.map .valid)) pid?
        = .ok ({ db with entries := db.entries.map fun x =>
            if x.id == i && x.api_key_id == k then editMod s? e? pid? x else x }, ())) := by
  have hnorm := putTimeEntry_normalize db k i existingEntry s? e? pid? hsome hget hpo
  have hpmem : existingEntry ∈ db.entries := List.mem_of_find?_eq_some hget
  have hpconds := List.find?_some hget
  refine ⟨?_, ?_, ?_⟩
  · intro hle hsome2
    rcases hfe : (match e? with | none => existingEntry.end_time | some v => v) with
      _ | te
    · rw [hfe] at hsome2; exact absurd hsome2 (by simp)
    · have hres : putTimeEntry db k i (s?.map .valid) (e?.map (Option.map .valid)) pid?
          = .error .validation := by
        rw [hnorm, hfe]
        rw [if_pos (by show decide _ = true; exact decide_eq_true (by
          have := hle te hfe; omega))]
      exact ⟨hres, by rw [hres]; rfl⟩
  · intro hfe hb
    obtain ⟨b, hbmem, hbk, hbo, hbi⟩ := hb
    have hres : putTimeEntry db k i (s?.map .valid) (e?.map (Option.map .valid)) pid?
        = .error .conflict := by
      rw [hnorm, hfe]
      rw [if_neg (by simp)]
      rw [if_pos ?hcond]
      case hcond =>
        simp only [Option.isNone_none, Bool.true_and]
        rw [List.any_eq_true]
        exact ⟨b, hbmem, by simp [hbk, hbo, hbi]⟩
    exact ⟨hres, by rw [hres]; rfl⟩
  · intro hlt hnoother
    have hviol : (db.entries.any fun e =>
        (e.id == i && e.api_key_id == k) && !e.isOpen && (editMod s? e? pid? e).isOpen &&
          (db.entries.map fun x =>
            if x.id == i && x.api_key_id == k then editMod s? e? pid? x else x).any fun b =>
              b.id != (editMod s? e? pid? e).id &&
                b.api_key_id == (editMod s? e? pid? e).api_key_id &&
                (b.isOpen : Bool)) = false := by
      rw [List.any_eq_false]
      intro a ha
      intro hBIG
      simp only [Bool.and_eq_true, Bool.not_eq_true', List.any_eq_true,
        beq_iff_eq, bne_iff_ne] at hBIG
      obtain ⟨⟨⟨hca, hano⟩, haopen⟩, b0, hbmem, hbprops⟩ := hBIG
      obtain ⟨x, hx, rfl⟩ := List.mem_map.mp hbmem
      obtain ⟨⟨hbid, hbkey⟩, hbopen⟩ := hbprops
      have hEopen : (match e? with | none => existingEntry.end_time | some v => v)
          = none := by
        rcases e? with _ | v
        · -- end untouched: editMod keeps a closed row closed
          exfalso
          have : (editMod s? none pid? a).isOpen = a.isOpen := by
            unfold editMod
            rcases s? with _ | s0 <;> rcases pid? with _ | p0 <;>
              simp [Entry.isOpen]
          rw [this] at haopen
          rw [haopen] at hano
          exact absurd hano (by simp)
        · rcases v with _ | t0
          · rfl
          · exfalso
            have : (editMod s? (some (some t0)) pid? a).isOpen = false := by
              unfold editMod
              rcases s? with _ | s0 <;> rcases pid? with _ | p0 <;>
                simp [Entry.isOpen]
            rw [this] at haopen
            exact absurd haopen (by simp)
      -- so by hypothesis every open row of the owner is the edited row
      by_cases hcx : x.id = i ∧ x.api_key_id = k
      · -- b is the edited row itself; but its id equals the id of a
        rw [if_pos hcx] at hbid
        simp only [editMod_id] at hbid
        exact hbid (by rw [hcx.1, hca.1])
      · rw [if_neg hcx] at hbid hbkey hbopen
        simp only [editMod_key] at hbkey
        have hxk : x.api_key_id = k := by rw [hbkey, hca.2]
        exact hcx ⟨hnoother hEopen x hx hxk hbopen, hxk⟩
    have hU : sqlUpdateEntries db (fun e => e.id == i && e.api_key_id == k)
        (editMod s? e? pid?)
        = .ok ({ db with entries := db.entries.map fun x =>
            if x.id == i && x.api_key_id == k then editMod s? e? pid? x else x },
          db.entries.countP fun e => e.id == i && e.api_key_id == k) := by
      unfold sqlUpdateEntries
      rw [if_neg (by simpa using hviol)]
    have hcnt : ((db.entries.countP fun e => e.id == i && e.api_key_id == k) == 0)
        = false := by
      have : 0 < db.entries.countP fun e => e.id == i && e.api_key_id == k :=
        List.countP_pos_iff.mpr ⟨existingEntry, hpmem, hpconds⟩
      rw [beq_eq_false_iff_ne]
      omega
    rcases hfe : (match e? with | none => existingEntry.end_time | some v => v) with
      _ | te
    · rw [hnorm, hfe]
      rw [if_neg (by simp)]
      rw [if_neg ?hnc]
      case hnc =>
        simp only [Option.isNone_none, Bool.true_and]
        intro hany
        simp only [List.any_eq_true, Bool.and_eq_true, beq_iff_eq, bne_iff_ne] at hany
        obtain ⟨b, hbmem, ⟨hbk, hbo⟩, hbne⟩ := hany
        exact hbne (hnoother hfe b hbmem hbk hbo)
      rw [hU]
      simp [hcnt]
    · rw [hnorm, hfe]
      rw [if_neg (by
        show ¬((some te).elim false (fun t => decide (s?.getD existingEntry.start_time ≥ t))
          = true)
        show ¬(decide (s?.getD existingEntry.start_time ≥ te) = true)
        rw [decide_eq_false (by have := hlt te hfe; omega)]
        simp)]
      rw [if_neg (by simp)]
      rw [hU]
      simp [hcnt]

theorem editEffectiveBounds_witness :
    getEntry ⟨[⟨1, 1, "A"⟩], [⟨1, 1, 1, 100, some 200⟩, ⟨2, 1, 1, 300, none⟩], 3⟩ 1 1
      = some ⟨1, 1, 1, 100, some 200⟩ ∧
    (putTimeEntry ⟨[⟨1, 1, "A"⟩], [⟨1, 1, 1, 100, some 200⟩, ⟨2, 1, 1, 300, none⟩], 3⟩
        1 1 none (some none) none = .error .conflict ∧
      commit ⟨[⟨1, 1, "A"⟩], [⟨1, 1, 1, 100, some 200⟩, ⟨2, 1, 1, 300, none⟩], 3⟩
        (putTimeEntry ⟨[⟨1, 1, "A"⟩], [⟨1, 1, 1, 100, some 200⟩, ⟨2, 1, 1, 300, none⟩], 3⟩
          1 1 none (some none) none)
        = ⟨[⟨1, 1, "A"⟩], [⟨1, 1, 1, 100, some 200⟩, ⟨2, 1, 1, 300, none⟩], 3⟩) := by
  have h := (editEffectiveBounds
    ⟨[⟨1, 1, "A"⟩], [⟨1, 1, 1, 100, some 200⟩, ⟨2, 1, 1, 300, none⟩], 3⟩ 1 1
    ⟨1, 1, 1, 100, some 200⟩ none (some none) none
    (by rintro ⟨-, h2, -⟩; exact Option.noConfusion h2) rfl
    (fun pid hp => Option.noConfusion hp)).2.1 rfl
    ⟨⟨2, 1, 1, 300, none⟩, by decide, rfl, rfl, by decide⟩
  exact ⟨rfl, h⟩

/-! ### Claim C4: the edit-linked cascade writes the opposite boundary -/

/-- Counterexample to claim C4 as stated, on both linked branches. First
scenario: editing entry 2's start from 100000 to 90000 with next_entry_id = 1
succeeds, yet the next entry's start is NOT set to any boundary of the edited
entry (it keeps its old value 0); it is the next entry's end that is set to
the edited entry's new start 90000. Second scenario: editing entry 2's end
from 200000 to 210000 with previous_entry_id = 3 succeeds, yet the previous
entry's end is NOT pushed to match (it keeps 300000); it is the previous
entry's start that is set to the edited entry's new end 210000. -/
theorem editLinkedCascade_counterexample :
    (putEditLinked
        ⟨[⟨1, 1, "A"⟩], [⟨1, 1, 1, 0, some 100000⟩, ⟨2, 1, 1, 100000, some 200000⟩], 3⟩
        1 2 (some (.valid 90000)) (some (.valid 200000)) (some 1) none
      = (⟨[⟨1, 1, "A"⟩],
          [⟨1, 1, 1, 0, some 90000⟩, ⟨2, 1, 1, 90000, some 200000⟩], 3⟩,
         .ok (90000, some 200000)) ∧
     (getEntry ⟨[⟨1, 1, "A"⟩],
         [⟨1, 1, 1, 0, some 90000⟩, ⟨2, 1, 1, 90000, some 200000⟩], 3⟩ 1 1).map
       Entry.start_time = some 0 ∧
     ¬((getEntry ⟨[⟨1, 1, "A"⟩],
         [⟨1, 1, 1, 0, some 90000⟩, ⟨2, 1, 1, 90000, some 200000⟩], 3⟩ 1 1).map
       Entry.start_time = some 90000) ∧
     ¬((getEntry ⟨[⟨1, 1, "A"⟩],
         [⟨1, 1, 1, 0, some 90000⟩, ⟨2, 1, 1, 90000, some 200000⟩], 3⟩ 1 1).map
       Entry.start_time = some 200000) ∧
     (getEntry ⟨[⟨1, 1, "A"⟩],
         [⟨1, 1, 1, 0, some 90000⟩, ⟨2, 1, 1, 90000, some 200000⟩], 3⟩ 1 1).map
       Entry.end_time = some (some 90000)) ∧
    (putEditLinked
        ⟨[⟨1, 1, "A"⟩], [⟨2, 1, 1, 100000, some 200000⟩, ⟨3, 1, 1, 200000, some 300000⟩], 4⟩
        1 2 (some (.valid 100000)) (some (.valid 210000)) none (some 3)
      = (⟨[⟨1, 1, "A"⟩],
          [⟨2, 1, 1, 100000, some 210000⟩, ⟨3, 1, 1, 210000, some 300000⟩], 4⟩,
         .ok (100000, some 210000)) ∧
     (getEntry ⟨[⟨1, 1, "A"⟩],
         [⟨2, 1, 1, 100000, some 210000⟩, ⟨3, 1, 1, 210000, some 300000⟩], 4⟩ 3 1).map
       Entry.end_time = some (some 300000) ∧
     ¬((getEntry ⟨[⟨1, 1, "A"⟩],
         [⟨2, 1, 1, 100000, some 210000⟩, ⟨3, 1, 1, 210000, some 300000⟩], 4⟩ 3 1).map
       Entry.end_time = some (some 210000)) ∧
     (getEntry ⟨[⟨1, 1, "A"⟩],
         [⟨2, 1, 1, 100000, some 210000⟩, ⟨3, 1, 1, 210000, some 300000⟩], 4⟩ 3 1).map
       Entry.start_time = some 210000) := by
  exact ⟨⟨rfl, by decide, by decide, by decide, by decide⟩,
    ⟨rfl, by decide, by decide, by decide⟩⟩

/-- Claim C4, amended. When new_start changed and next_entry_id is supplied,
the next entry's END is set to this entry's new start; that branch is checked
before any write, so its rejection (next.start ≥ this.new_start) answers 400
with no entry modified. When the end changed to a non-null value and
previous_entry_id is supplied, the previous entry's START is set to this
entry's new end; that branch is rejected with 400 when the previous entry is
open or its end ≤ this entry's new end — but applyEdit reports this by
returning from the transaction, which better-sqlite3 COMMITS, so the already
executed next-entry UPDATE stays committed alongside the 400 answer. On
success the entry gets the new bounds and both neighbours are adjusted in the
same committed transaction. -/
theorem editLinkedCascade (db : DB) (k entryId nid pid : Nat) (cur nextE prevE : Entry)
    (ts te : Int)
    (hcur : getEntry db entryId k = some cur)
    (hnext : getEntry db nid k = some nextE)
    (hprevE : getEntry db pid k = some prevE)
    (hd1 : entryId ≠ nid) (hd2 : entryId ≠ pid) (hd3 : nid ≠ pid)
    (hts : ts < te)
    (hsc : ts ≠ cur.start_time)
    (hec : (some te : Option Int) ≠ cur.end_time) :
    (nextE.start_time ≥ ts →
      putEditLinked db k entryId (some (.valid ts)) (some (.valid te))
          (some nid) (some pid) = (db, .error .validation)) ∧
    (nextE.start_time < ts → prevE.end_time = none →
      putEditLinked db k entryId (some (.valid ts)) (some (.valid te))
          (some nid) (some pid)
        = ({ db with entries := db.entries.map fun x =>
              if x.id == nid && x.api_key_id == k then { x with end_time := some ts }
              else x }, .error .validation)) ∧
    (∀ ppe : Int, nextE.start_time < ts → prevE.end_time = some ppe → te ≥ ppe →
      putEditLinked db k entryId (some (.valid ts)) (some (.valid te))
          (some nid) (some pid)
        = ({ db with entries := db.entries.map fun x =>
              if x.id == nid && x.api_key_id == k then { x with end_time := some ts }
              else x }, .error .validation)) ∧
    (∀ ppe : Int, nextE.start_time < ts → prevE.end_time = some ppe → te < ppe →
      putEditLinked db k entryId (some (.valid ts)) (some (.valid te))
          (some nid) (some pid)
        = ({ db with entries := db.entries.map fun x =>
            if x.id == nid && x.api_key_id == k then { x with end_time := some ts }
            else if x.id == pid && x.api_key_id == k then { x with start_time := te }
            else if x.id == entryId && x.api_key_id == k then
              { x with start_time := ts, end_time := some te }
            else x }, .ok (ts, some te))) := by
  have hprevconds := List.find?_some hprevE
  simp only [Bool.and_eq_true, beq_iff_eq] at hprevconds
  have hscB : (ts != cur.start_time) = true := bne_iff_ne.mpr hsc
  have hecB : ((some te : Option Int) != cur.end_time) = true := bne_iff_ne.mpr hec
  have hval : ¬(((some te : Option Int).elim false
      fun ne => decide (ts ≥ ne)) = true) := by
    show ¬(decide (ts ≥ te) = true)
    rw [decide_eq_false (by omega)]
    simp
  have hU1 := @sqlUpdateEntries_eq_ok_of db
      (fun e => e.id == nid && e.api_key_id == k)
      (fun e => { e with end_time := some ts })
      (by intro x _; simp [Entry.isOpen])
  have hgp : getEntry { db with entries := db.entries.map fun e =>
      if e.id == nid && e.api_key_id == k then { e with end_time := some ts }
      else e } pid k = some prevE := by
    show (db.entries.map fun e =>
      if e.id == nid && e.api_key_id == k then { e with end_time := some ts }
      else e).find? (fun e => e.id == pid && e.api_key_id == k) = some prevE
    rw [find?_map_comm ?hp]
    case hp =>
      intro a
      by_cases hc : (a.id == nid && a.api_key_id == k) = true <;> simp [hc]
    rw [show db.entries.find? (fun e => e.id == pid && e.api_key_id == k)
      = some prevE from hprevE]
    show some (if prevE.id == nid && prevE.api_key_id == k then
      { prevE with end_time := some ts } else prevE) = some prevE
    rw [if_neg ?hne]
    case hne =>
      intro hcc
      simp only [Bool.and_eq_true, beq_iff_eq] at hcc
      exact hd3 (by rw [← hcc.1, hprevconds.1])
  refine ⟨?_, ?_, ?_, ?_⟩
  · intro hinv
    simp only [putEditLinked, parseDate, hcur, hscB, hecB, hnext]
    rw [if_neg hval, if_pos hinv]
  · intro hnv hpe
    simp only [putEditLinked, parseDate, hcur, hscB, hecB, hnext]
    rw [if_neg hval, if_neg (by omega), hU1]
    simp only [Except.map]
    simp only [hgp, hpe]
  · intro ppe hnv hpe hge
    simp only [putEditLinked, parseDate, hcur, hscB, hecB, hnext]
    rw [if_neg hval, if_neg (by omega), hU1]
    simp only [Except.map]
    simp only [hgp, hpe]
    rw [if_pos (by omega)]
  · intro ppe hnv hppe hpv
    have hU2 := @sqlUpdateEntries_eq_ok_of
        { db with entries := db.entries.map fun e =>
            if e.id == nid && e.api_key_id == k then { e with end_time := some ts }
            else e }
        (fun e => e.id == pid && e.api_key_id == k)
        (fun e => { e with start_time := te })
        (by intro x _; cases hov : x.end_time <;> simp [Entry.isOpen, hov])
    have hU3 := @sqlUpdateEntries_eq_ok_of
        { db with entries := ((db.entries.map fun e =>
            if e.id == nid && e.api_key_id == k then { e with end_time := some ts }
            else e).map fun e =>
              if e.id == pid && e.api_key_id == k then { e with start_time := te }
              else e) }
        (fun e => e.id == entryId && e.api_key_id == k)
        (fun e => { e with start_time := ts, end_time := some te })
        (by intro x _; simp [Entry.isOpen])
    have hmaps : (((db.entries.map fun e =>
        if e.id == nid && e.api_key_id == k then { e with end_time := some ts }
        else e).map fun e =>
          if e.id == pid && e.api_key_id == k then { e with start_time := te }
          else e).map fun e =>
            if e.id == entryId && e.api_key_id == k then
              { e with start_time := ts, end_time := some te }
            else e)
        = db.entries.map fun x =>
            if x.id == nid && x.api_key_id == k then { x with end_time := some ts }
            else if x.id == pid && x.api_key_id == k then { x with start_time := te }
            else if x.id == entryId && x.api_key_id == k then
              { x with start_time := ts, end_time := some te }
            else x := by
      rw [List.map_map, List.map_map]
      apply List.map_congr_left
      intro a _
      simp only [Function.comp_apply]
      by_cases h1 : (a.id == nid && a.api_key_id == k) = true <;>
        by_cases h2 : (a.id == pid && a.api_key_id == k) = true <;>
          by_cases h3 : (a.id == entryId && a.api_key_id == k) = true
      all_goals (
        try (exfalso
             simp only [Bool.and_eq_true, beq_iff_eq] at h1 h2 h3
             omega))
      all_goals simp [h1, h2, h3]
    simp only [putEditLinked, parseDate, hcur, hscB, hecB, hnext]
    rw [if_neg hval, if_neg (by omega), hU1]
    simp only [Except.map]
    simp only [hgp, hppe]
    rw [if_neg (by omega), hU2]
    simp only [Except.map]
    simp only [hU3]
    rw [hmaps]

theorem editLinkedCascade_witness :
    getEntry ⟨[⟨1, 1, "A"⟩], [⟨1, 1, 1, 0, some 100000⟩,
        ⟨2, 1, 1, 100000, some 200000⟩, ⟨3, 1, 1, 200000, some 300000⟩], 4⟩ 2 1
      = some ⟨2, 1, 1, 100000, some 200000⟩ ∧
    putEditLinked ⟨[⟨1, 1, "A"⟩], [⟨1, 1, 1, 0, some 100000⟩,
        ⟨2, 1, 1, 100000, some 200000⟩, ⟨3, 1, 1, 200000, some 300000⟩], 4⟩
        1 2 (some (.valid 90000)) (some (.valid 210000)) (some 1) (some 3)
      = (⟨[⟨1, 1, "A"⟩], [⟨1, 1, 1, 0, some 90000⟩,
          ⟨2, 1, 1, 90000, some 210000⟩, ⟨3, 1, 1, 210000, some 300000⟩], 4⟩,
        .ok (90000, some 210000)) := by
  have h := (editLinkedCascade ⟨[⟨1, 1, "A"⟩], [⟨1, 1, 1, 0, some 100000⟩,
      ⟨2, 1, 1, 100000, some 200000⟩, ⟨3, 1, 1, 200000, some 300000⟩], 4⟩
      1 2 1 3 ⟨2, 1, 1, 100000, some 200000⟩ ⟨1, 1, 1, 0, some 100000⟩
      ⟨3, 1, 1, 200000, some 300000⟩ 90000 210000
      rfl rfl rfl (by omega) (by omega) (by omega) (by omega)
      (by decide) (by decide)).2.2.2 300000 (by decide) rfl (by decide)
  refine ⟨rfl, ?_⟩
  rw [h]
  rfl

/-! ### The reconciler: the grouping fold builds the per-owner groups -/

theorem find?_eq_head?_filter {α : Type} (p : α → Bool) (l : List α) :
    l.find? p = (l.filter p).head? := by
  induction l with
  | nil => rfl
  | cons a l ih =>
    by_cases h : p a
    · rw [List.find?_cons_of_pos _ h, List.filter_cons_of_pos h, List.head?_cons]
    · rw [List.find?_cons_of_neg _ h, List.filter_cons_of_neg h, ih]

theorem find?_split {α : Type} {p : α → Bool} {l : List α} {a : α}
    (h : l.find? p = some a) :
    ∃ l1 l2, l = l1 ++ a :: l2 ∧ ∀ x ∈ l1, p x = false := by
  induction l with
  | nil => simp at h
  | cons b l ih =>
    by_cases hb : p b
    · rw [List.find?_cons_of_pos _ hb] at h
      cases h
      exact ⟨[], l, rfl, by simp⟩
    · rw [List.find?_cons_of_neg _ hb] at h
      obtain ⟨l1, l2, rfl, hl1⟩ := ih h
      refine ⟨b :: l1, l2, rfl, ?_⟩
      intro x hx
      rcases List.mem_cons.mp hx with rfl | hx'
      · simpa using hb
      · exact hl1 x hx'

theorem find?_fst_eq_of_nodup {ps : List (Nat × Int)} {i : Nat} {t : Int}
    (hnd : (ps.map Prod.fst).Nodup) (hmem : (i, t) ∈ ps) :
    ps.find? (fun q => q.1 == i) = some (i, t) := by
  induction ps with
  | nil => simp at hmem
  | cons q ps ih =>
    rw [List.map_cons, List.nodup_cons] at hnd
    rcases List.mem_cons.mp hmem with rfl | hmem'
    · exact List.find?_cons_of_pos _ (by simp)
    · have hq : q.1 ≠ i := by
        intro hqi
        exact hnd.1 (hqi ▸ List.mem_map.mpr ⟨(i, t), hmem', rfl⟩)
      rw [List.find?_cons_of_neg _ (by simp [hq])]
      exact ih hnd.2 hmem'

theorem addToGroups_fst (gs : List (Nat × List Entry)) (r : Entry) :
    (addToGroups gs r).map Prod.fst =
      if r.api_key_id ∈ gs.map Prod.fst then gs.map Prod.fst
      else gs.map Prod.fst ++ [r.api_key_id] := by
  induction gs with
  | nil => simp [addToGroups]
  | cons kg rest ih =>
    obtain ⟨k, g⟩ := kg
    by_cases hk : k = r.api_key_id
    · subst hk
      simp [addToGroups]
    · simp only [addToGroups, if_neg hk, List.map_cons, ih]
      by_cases hmem : r.api_key_id ∈ rest.map Prod.fst
      · rw [if_pos hmem, if_pos (by simp [hmem])]
      · rw [if_neg hmem, if_neg (by simp [Ne.symm hk, hmem])]
        rfl

theorem addToGroups_content {pre : List Entry} (r : Entry) :
    ∀ gs : List (Nat × List Entry),
      (gs.map Prod.fst).Nodup →
      (∀ p ∈ gs, p.2 = pre.filter fun x => x.api_key_id == p.1) →
      (r.api_key_id ∉ gs.map Prod.fst →
        pre.filter (fun x => x.api_key_id == r.api_key_id) = []) →
      ∀ p ∈ addToGroups gs r,
        p.2 = (pre ++ [r]).filter fun x => x.api_key_id == p.1 := by
  intro gs
  induction gs with
  | nil =>
    intro _ _ hnew p hp
    simp only [addToGroups, List.mem_singleton] at hp
    subst hp
    have h0 : pre.filter (fun x => x.api_key_id == r.api_key_id) = [] :=
      hnew (by simp)
    simp [List.filter_append, h0]
  | cons kg rest ih =>
    obtain ⟨k, g⟩ := kg
    intro hnd hcontent hnew p hp
    rw [List.map_cons, List.nodup_cons] at hnd
    simp only at hnd
    by_cases hk : k = r.api_key_id
    · simp only [addToGroups] at hp
      rw [if_pos hk] at hp
      rcases List.mem_cons.mp hp with rfl | hp'
      · show g ++ [r] = (pre ++ [r]).filter fun x => x.api_key_id == k
        have hg := hcontent (k, g) (List.mem_cons_self _ _)
        simp only at hg
        rw [List.filter_append, ← hg]
        simp [hk]
      · have hp1 : p.1 ∈ rest.map Prod.fst := List.mem_map.mpr ⟨p, hp', rfl⟩
        have hne : k ≠ p.1 := by
          intro he
          exact hnd.1 (he ▸ hp1)
        have hcp := hcontent p (List.mem_cons_of_mem _ hp')
        rw [List.filter_append, ← hcp]
        simp [← hk, hne]
    · simp only [addToGroups] at hp
      rw [if_neg hk] at hp
      rcases List.mem_cons.mp hp with rfl | hp'
      · show g = (pre ++ [r]).filter fun x => x.api_key_id == k
        have hg := hcontent (k, g) (List.mem_cons_self _ _)
        simp only at hg
        rw [List.filter_append, ← hg]
        simp [Ne.symm hk]
      · refine ih hnd.2 (fun q hq => hcontent q (List.mem_cons_of_mem _ hq)) ?_ p hp'
        intro hnotin
        apply hnew
        simp only [List.map_cons, List.mem_cons, not_or]
        exact ⟨Ne.symm hk, hnotin⟩

theorem addToGroups_inv {pre : List Entry} {gs : List (Nat × List Entry)} (r : Entry)
    (h : GroupsInv pre gs) : GroupsInv (pre ++ [r]) (addToGroups gs r) := by
  obtain ⟨hnd, hcontent, hcomp⟩ := h
  have hnew : r.api_key_id ∉ gs.map Prod.fst →
      pre.filter (fun x => x.api_key_id == r.api_key_id) = [] := by
    intro hnotin
    rw [List.filter_eq_nil_iff]
    intro x hx
    simp only [beq_iff_eq]
    intro hxe
    exact hnotin (hxe ▸ hcomp x hx)
  refine ⟨?_, addToGroups_content r gs hnd hcontent hnew, ?_⟩
  · rw [addToGroups_fst]
    by_cases hmem : r.api_key_id ∈ gs.map Prod.fst
    · rw [if_pos hmem]
      exact hnd
    · rw [if_neg hmem]
      rw [List.nodup_append]
      exact ⟨hnd, List.nodup_singleton _, by
        intro a ha hb
        rw [List.mem_singleton] at hb
        exact hmem (hb ▸ ha)⟩
  · intro x hx
    rw [addToGroups_fst]
    rcases List.mem_append.mp hx with hx' | hx'
    · have hmx := hcomp x hx'
      by_cases hmem : r.api_key_id ∈ gs.map Prod.fst
      · rw [if_pos hmem]
        exact hmx
      · rw [if_neg hmem]
        exact List.mem_append.mpr (Or.inl hmx)
    · have hxr : x = r := by simpa using hx'
      subst hxr
      by_cases hmem : x.api_key_id ∈ gs.map Prod.fst
      · rw [if_pos hmem]
        exact hmem
      · rw [if_neg hmem]
        exact List.mem_append.mpr (Or.inr (by simp))

theorem foldl_addToGroups_inv (rows : List Entry) :
    ∀ (pre : List Entry) (gs : List (Nat × List Entry)),
      GroupsInv pre gs → GroupsInv (pre ++ rows) (rows.foldl addToGroups gs) := by
  induction rows with
  | nil =>
    intro pre gs h
    simpa using h
  | cons r rows ih =>
    intro pre gs h
    have h2 := ih (pre ++ [r]) (addToGroups gs r) (addToGroups_inv r h)
    simpa [List.append_assoc] using h2

theorem reconGroups_inv (db : DB) : GroupsInv (reconRows db) (reconGroups db) := by
  have h := foldl_addToGroups_inv (reconRows db) [] []
    ⟨List.nodup_nil, by simp, by simp⟩
  simpa [reconGroups] using h

/-! ### The reconciler's nested loops as one fold over (stale id, time) pairs -/

theorem flatStalePairs_cons (kg : Nat × List Entry) (rest : List (Nat × List Entry)) :
    flatStalePairs (kg :: rest) = stalePairs kg.2 ++ flatStalePairs rest := by
  simp [flatStalePairs]

theorem reconStep_eq (acc : List Entry × Nat) (kg : Nat × List Entry) :
    reconStep acc kg = (stalePairs kg.2).foldl closeOne acc := by
  obtain ⟨k, g⟩ := kg
  match g with
  | [] => rfl
  | [newest] => rfl
  | newest :: s :: ss =>
    show (if (s :: ss).isEmpty then acc
        else (s :: ss).foldl
          (fun acc2 stale => (closeStale acc2.1 stale.id newest.start_time, acc2.2 + 1))
          acc)
      = ((s :: ss).map fun x => (x.id, newest.start_time)).foldl closeOne acc
    rw [if_neg (by simp), List.foldl_map]
    rfl

theorem foldl_reconStep (gs : List (Nat × List Entry)) :
    ∀ acc : List Entry × Nat,
      gs.foldl reconStep acc = (flatStalePairs gs).foldl closeOne acc := by
  induction gs with
  | nil =>
    intro acc
    rfl
  | cons kg rest ih =>
    intro acc
    rw [List.foldl_cons, reconStep_eq, flatStalePairs_cons, List.foldl_append, ih]

theorem closeFun_cons (q : Nat × Int) (ps : List (Nat × Int)) (e : Entry) :
    closeFun ps (if e.id == q.1 && e.isOpen then { e with end_time := some q.2 } else e)
      = closeFun (q :: ps) e := by
  by_cases ho : e.isOpen
  · by_cases hid : e.id = q.1
    · rw [if_pos (by simp [hid, ho])]
      simp only [closeFun]
      rw [if_neg (by simp [Entry.isOpen]), if_pos ho,
        List.find?_cons_of_pos _ (by simp [hid])]
    · rw [if_neg (by simp [hid])]
      simp only [closeFun]
      rw [List.find?_cons_of_neg _ (by simp [Ne.symm hid])]
  · rw [if_neg (by simp [ho])]
    simp only [closeFun]
    rw [if_neg ho, if_neg ho]

theorem foldl_closeOne (ps : List (Nat × Int)) :
    ∀ (l : List Entry) (n : Nat),
      ps.foldl closeOne (l, n) = (l.map (closeFun ps), n + ps.length) := by
  induction ps with
  | nil =>
    intro l n
    have h0 : ∀ e : Entry, closeFun [] e = e := by
      intro e
      cases h : e.isOpen <;> simp [closeFun, h]
    rw [show l.map (closeFun []) = l.map id from List.map_congr_left fun e _ => h0 e,
      List.map_id]
    rfl
  | cons q ps ih =>
    intro l n
    rw [List.foldl_cons]
    show ps.foldl closeOne (closeStale l q.1 q.2, n + 1) = _
    rw [ih]
    have hmap : (closeStale l q.1 q.2).map (closeFun ps) = l.map (closeFun (q :: ps)) := by
      simp only [closeStale]
      rw [List.map_map]
      exact List.map_congr_left fun e _ => closeFun_cons q ps e
    rw [hmap]
    have hn : n + 1 + ps.length = n + (q :: ps).length := by
      simp only [List.length_cons]
      omega
    rw [hn]

theorem reconcile_eq_closeFun (db : DB) :
    reconcileRunningEntriesForConstraints db =
      ({ db with entries := db.entries.map (closeFun (flatStalePairs (reconGroups db))) },
        (flatStalePairs (reconGroups db)).length) := by
  simp only [reconcileRunningEntriesForConstraints]
  rw [foldl_reconStep, foldl_closeOne, Nat.zero_add]
  rfl

/-! ### Facts about the ordered running rows, the groups and the pair list -/

theorem reconRows_perm (db : DB) :
    (reconRows db).Perm (db.entries.filter fun e => e.isOpen) :=
  List.perm_insertionSort rowLe _

theorem reconRows_sorted (db : DB) : (reconRows db).Pairwise rowLe :=
  List.sorted_insertionSort rowLe _

theorem reconRows_mem (db : DB) (e : Entry) :
    e ∈ reconRows db ↔ e ∈ db.entries ∧ e.isOpen = true := by
  rw [(reconRows_perm db).mem_iff, List.mem_filter]

theorem reconRows_nodup_ids {db : DB} (h : WFdb db) :
    ((reconRows db).map Entry.id).Nodup := by
  have h1 : ((db.entries.filter fun e => e.isOpen).map Entry.id).Nodup :=
    List.Nodup.sublist (List.Sublist.map Entry.id (List.filter_sublist db.entries)) h.1
  exact (((reconRows_perm db).map Entry.id).nodup_iff).mpr h1

theorem id_inj_of_nodup {l : List Entry} (h : (l.map Entry.id).Nodup)
    {a b : Entry} (ha : a ∈ l) (hb : b ∈ l) (hid : a.id = b.id) : a = b :=
  List.inj_on_of_nodup_map h ha hb hid

theorem keptFor_def (db : DB) (k : Nat) :
    keptFor db k = (reconRows db).find? fun r => r.api_key_id == k := rfl

theorem keptFor_eq (db : DB) (k : Nat) :
    keptFor db k = ((reconRows db).filter fun r => r.api_key_id == k).head? := by
  rw [keptFor_def, find?_eq_head?_filter]

theorem openRows_mem (db : DB) (k : Nat) (x : Entry) :
    x ∈ openRows db k ↔ x ∈ db.entries ∧ x.api_key_id = k ∧ x.isOpen = true := by
  simp [openRows, List.mem_filter, and_assoc]

theorem keptFor_spec {db : DB} {k : Nat} {kept : Entry}
    (hk : keptFor db k = some kept) :
    kept ∈ reconRows db ∧ kept.api_key_id = k ∧
      ∀ x ∈ reconRows db, x.api_key_id = k → x = kept ∨ rowLe kept x := by
  rw [keptFor_def] at hk
  have hmem := List.mem_of_find?_eq_some hk
  have hkey := List.find?_some hk
  obtain ⟨l1, l2, hsplit, hl1⟩ := find?_split hk
  refine ⟨hmem, by simpa using hkey, ?_⟩
  intro x hx hxk
  have hsort := reconRows_sorted db
  rw [hsplit] at hsort hx
  rcases List.mem_append.mp hx with hx1 | hx2
  · have := hl1 x hx1
    simp [hxk] at this
  · rcases List.mem_cons.mp hx2 with rfl | hx2'
    · exact Or.inl rfl
    · exact Or.inr ((List.pairwise_cons.mp (List.pairwise_append.mp hsort).2.1).1 x hx2')

theorem group_of_key {db : DB} {k : Nat} (hk : k ∈ (reconGroups db).map Prod.fst) :
    (k, (reconRows db).filter fun x => x.api_key_id == k) ∈ reconGroups db := by
  obtain ⟨hnd, hcontent, hcomp⟩ := reconGroups_inv db
  obtain ⟨p, hp, hp1⟩ := List.mem_map.mp hk
  have hpc := hcontent p hp
  have hpe : p = (k, (reconRows db).filter fun x => x.api_key_id == k) := by
    obtain ⟨k0, g0⟩ := p
    simp only at hp1 hpc
    rw [Prod.mk.injEq]
    exact ⟨hp1, by rw [hpc, hp1]⟩
  rwa [hpe] at hp

theorem group_member {db : DB} {p : Nat × List Entry} (hp : p ∈ reconGroups db)
    {s : Entry} (hs : s ∈ p.2) : s ∈ reconRows db ∧ s.api_key_id = p.1 := by
  obtain ⟨hnd, hcontent, hcomp⟩ := reconGroups_inv db
  rw [hcontent p hp] at hs
  exact ⟨List.mem_of_mem_filter hs, by simpa using List.of_mem_filter hs⟩

theorem group_nodup_ids {db : DB} (h : WFdb db) {p : Nat × List Entry}
    (hp : p ∈ reconGroups db) : (p.2.map Entry.id).Nodup := by
  obtain ⟨hnd, hcontent, hcomp⟩ := reconGroups_inv db
  rw [hcontent p hp]
  exact List.Nodup.sublist
    (List.Sublist.map Entry.id (List.filter_sublist (reconRows db)))
    (reconRows_nodup_ids h)

theorem mem_flatStalePairs {gs : List (Nat × List Entry)} {q : Nat × Int} :
    q ∈ flatStalePairs gs ↔ ∃ p ∈ gs, q ∈ stalePairs p.2 := by
  rw [flatStalePairs, List.mem_flatten]
  constructor
  · rintro ⟨l, hl, hql⟩
    obtain ⟨p, hp, rfl⟩ := List.mem_map.mp hl
    exact ⟨p, hp, hql⟩
  · rintro ⟨p, hp, hq⟩
    exact ⟨stalePairs p.2, List.mem_map.mpr ⟨p, hp, rfl⟩, hq⟩

theorem stalePairs_fst_source {g : List Entry} {i : Nat}
    (hi : i ∈ (stalePairs g).map Prod.fst) : ∃ s ∈ g, s.id = i := by
  cases g with
  | nil => simp [stalePairs] at hi
  | cons newest stales =>
    simp only [stalePairs, List.map_map] at hi
    obtain ⟨s, hs, hsi⟩ := List.mem_map.mp hi
    exact ⟨s, List.mem_cons_of_mem _ hs, hsi⟩

theorem stalePairs_fst_nodup {g : List Entry} (h : (g.map Entry.id).Nodup) :
    ((stalePairs g).map Prod.fst).Nodup := by
  cases g with
  | nil => simp [stalePairs]
  | cons newest stales =>
    simp only [stalePairs, List.map_map]
    rw [List.map_cons, List.nodup_cons] at h
    have he : stales.map (Prod.fst ∘ fun s => ((s.id : Nat), newest.start_time))
        = stales.map Entry.id := rfl
    rw [he]
    exact h.2

theorem flatPair_source {db : DB} {q : Nat × Int}
    (hq : q ∈ flatStalePairs (reconGroups db)) :
    ∃ k newest stales s,
      (k, newest :: stales) ∈ reconGroups db ∧
      (reconRows db).filter (fun x => x.api_key_id == k) = newest :: stales ∧
      s ∈ stales ∧ s.id = q.1 ∧ q.2 = newest.start_time := by
  obtain ⟨p, hp, hq2⟩ := mem_flatStalePairs.mp hq
  obtain ⟨hnd, hcontent, hcomp⟩ := reconGroups_inv db
  have hpc := hcontent p hp
  cases hg : p.2 with
  | nil =>
    rw [hg] at hq2
    simp [stalePairs] at hq2
  | cons newest stales =>
    rw [hg] at hq2
    simp only [stalePairs] at hq2
    obtain ⟨s, hs, rfl⟩ := List.mem_map.mp hq2
    refine ⟨p.1, newest, stales, s, ?_, ?_, hs, rfl, rfl⟩
    · have hpe : p = (p.1, newest :: stales) := by
        obtain ⟨k0, g0⟩ := p
        simp only at hg
        rw [Prod.mk.injEq]
        exact ⟨rfl, hg⟩
      rwa [hpe] at hp
    · rw [← hpc, hg]

theorem pairs_fst_nodup {db : DB} (h : WFdb db) :
    ((flatStalePairs (reconGroups db)).map Prod.fst).Nodup := by
  rw [flatStalePairs, List.map_flatten, List.map_map]
  rw [List.nodup_flatten]
  constructor
  · intro l hl
    obtain ⟨p, hp, rfl⟩ := List.mem_map.mp hl
    exact stalePairs_fst_nodup (group_nodup_ids h hp)
  · have hnd := (reconGroups_inv db).1
    have hpw : (reconGroups db).Pairwise fun p p' => p.1 ≠ p'.1 :=
      List.pairwise_map.mp hnd
    rw [List.pairwise_map]
    refine hpw.imp_of_mem ?_
    intro p p' hp hp' hne i hip hip'
    obtain ⟨s, hs, hsi⟩ := stalePairs_fst_source hip
    obtain ⟨s', hs', hsi'⟩ := stalePairs_fst_source hip'
    obtain ⟨hsr, hskey⟩ := group_member hp hs
    obtain ⟨hsr', hskey'⟩ := group_member hp' hs'
    have hss : s = s' :=
      id_inj_of_nodup (reconRows_nodup_ids h) hsr hsr' (by rw [hsi, hsi'])
    exact hne (by rw [← hskey, hss, hskey'])

theorem pairs_fst_sub {db : DB} :
    ∀ i ∈ (flatStalePairs (reconGroups db)).map Prod.fst,
      i ∈ (reconRows db).map Entry.id := by
  intro i hi
  obtain ⟨q, hq, rfl⟩ := List.mem_map.mp hi
  obtain ⟨k, newest, stales, s, hgrp, hfil, hs, hsid, _⟩ := flatPair_source hq
  refine List.mem_map.mpr ⟨s, ?_, hsid⟩
  have hsf : s ∈ (reconRows db).filter fun x => x.api_key_id == k := by
    rw [hfil]
    exact List.mem_cons_of_mem _ hs
  exact List.mem_of_mem_filter hsf

/-! ### Per-row characterization of what the reconciler writes -/

theorem kept_not_in_pairs {db : DB} (h : WFdb db) {k : Nat} {kept : Entry}
    (hk : keptFor db k = some kept) :
    ∀ q ∈ flatStalePairs (reconGroups db), q.1 ≠ kept.id := by
  intro q hq hqid
  obtain ⟨k', newest, stales, s, hgrp, hfil, hs, hsid, hqt⟩ := flatPair_source hq
  have hsf : s ∈ (reconRows db).filter fun x => x.api_key_id == k' := by
    rw [hfil]
    exact List.mem_cons_of_mem _ hs
  have hsrows : s ∈ reconRows db := List.mem_of_mem_filter hsf
  obtain ⟨hkrows, hkkey, _⟩ := keptFor_spec hk
  have hskept : s = kept :=
    id_inj_of_nodup (reconRows_nodup_ids h) hsrows hkrows (by rw [hsid, hqid])
  have hskey : s.api_key_id = k' := by simpa using List.of_mem_filter hsf
  have hkk' : k' = k := by rw [← hskey, hskept, hkkey]
  have hhead := keptFor_eq db k
  rw [hk, ← hkk', hfil, List.head?_cons] at hhead
  have hkn : kept = newest := by injection hhead
  have hgnodup : ((newest :: stales).map Entry.id).Nodup := by
    rw [← hfil]
    exact List.Nodup.sublist
      (List.Sublist.map Entry.id (List.filter_sublist (reconRows db)))
      (reconRows_nodup_ids h)
  rw [List.map_cons, List.nodup_cons] at hgnodup
  apply hgnodup.1
  refine List.mem_map.mpr ⟨s, hs, ?_⟩
  rw [hsid, hqid, hkn]

theorem find?_pairs_kept_none {db : DB} (h : WFdb db) {k : Nat} {kept : Entry}
    (hk : keptFor db k = some kept) :
    (flatStalePairs (reconGroups db)).find? (fun q => q.1 == kept.id) = none := by
  rw [List.find?_eq_none]
  intro q hq
  simpa using kept_not_in_pairs h hk q hq

theorem find?_pairs_stale {db : DB} (h : WFdb db) {k : Nat} {kept e : Entry}
    (hk : keptFor db k = some kept) (he : e ∈ db.entries) (hekey : e.api_key_id = k)
    (heopen : e.isOpen = true) (hne : e.id ≠ kept.id) :
    (flatStalePairs (reconGroups db)).find? (fun q => q.1 == e.id)
      = some (e.id, kept.start_time) := by
  have herows : e ∈ reconRows db := (reconRows_mem db e).mpr ⟨he, heopen⟩
  obtain ⟨hnd, hcontent, hcomp⟩ := reconGroups_inv db
  have hkmem : k ∈ (reconGroups db).map Prod.fst := by
    have := hcomp e herows
    rwa [hekey] at this
  have hgrp := group_of_key hkmem
  have hef : e ∈ (reconRows db).filter fun x => x.api_key_id == k :=
    List.mem_filter.mpr ⟨herows, by simp [hekey]⟩
  have hhead := keptFor_eq db k
  rw [hk] at hhead
  cases hfil : (reconRows db).filter fun x => x.api_key_id == k with
  | nil =>
    rw [hfil] at hef
    simp at hef
  | cons newest stales =>
    rw [hfil, List.head?_cons] at hhead
    have hkn : newest = kept := by
      injection hhead with hh
      exact hh.symm
    rw [hfil] at hef hgrp
    have hestale : e ∈ stales := by
      rcases List.mem_cons.mp hef with he2 | h'
      · exact absurd (show e.id = kept.id by rw [he2, hkn]) hne
      · exact h'
    have hqmem : ((e.id, kept.start_time) : Nat × Int)
        ∈ flatStalePairs (reconGroups db) := by
      apply mem_flatStalePairs.mpr
      refine ⟨(k, newest :: stales), hgrp, ?_⟩
      show ((e.id, kept.start_time) : Nat × Int) ∈ stalePairs (newest :: stales)
      simp only [stalePairs]
      refine List.mem_map.mpr ⟨e, hestale, ?_⟩
      rw [hkn]
    exact find?_fst_eq_of_nodup (pairs_fst_nodup h) hqmem

theorem closeFun_eq_spec {db : DB} (h : WFdb db) {e : Entry} (he : e ∈ db.entries) :
    closeFun (flatStalePairs (reconGroups db)) e = reconcileSpecFun db e := by
  cases ho : e.isOpen with
  | false =>
    have h1 : closeFun (flatStalePairs (reconGroups db)) e = e := by
      simp only [closeFun]
      rw [if_neg (by simp [ho])]
    rw [h1]
    cases hk : keptFor db e.api_key_id with
    | none => simp only [reconcileSpecFun, hk]
    | some kept =>
      simp only [reconcileSpecFun, hk]
      rw [if_neg (by simp [ho])]
  | true =>
    cases hk : keptFor db e.api_key_id with
    | none =>
      exfalso
      rw [keptFor_def, List.find?_eq_none] at hk
      have := hk e ((reconRows_mem db e).mpr ⟨he, ho⟩)
      simp at this
    | some kept =>
      by_cases hid : e.id = kept.id
      · simp only [reconcileSpecFun, hk]
        rw [if_neg (by simp [hid])]
        simp only [closeFun]
        rw [if_pos ho]
        rw [show (fun q : Nat × Int => q.1 == e.id)
            = fun q : Nat × Int => q.1 == kept.id by
          funext q
          rw [hid]]
        rw [find?_pairs_kept_none h hk]
      · simp only [reconcileSpecFun, hk]
        rw [if_pos (by simp [ho, hid])]
        simp only [closeFun]
        rw [if_pos ho, find?_pairs_stale h hk he rfl ho hid]

theorem reconcile_eq_map {db : DB} (h : WFdb db) :
    reconcileRunningEntriesForConstraints db =
      ({ db with entries := db.entries.map (reconcileSpecFun db) },
        (flatStalePairs (reconGroups db)).length) := by
  rw [reconcile_eq_closeFun]
  rw [List.map_congr_left fun e he => closeFun_eq_spec h he]

/-! ### Counting the closed rows and the invariant after reconciliation -/

theorem countP_split {α : Type} (l : List α) (p q r : α → Bool)
    (h : ∀ e ∈ l, p e = (q e || r e) ∧ (q e && r e) = false) :
    l.countP p = l.countP q + l.countP r := by
  induction l with
  | nil => simp
  | cons a l ih =>
    rw [List.countP_cons, List.countP_cons, List.countP_cons,
      ih fun e he => h e (List.mem_cons_of_mem _ he)]
    obtain ⟨h1, h2⟩ := h a (List.mem_cons_self _ _)
    rw [h1]
    cases hq : q a with
    | false =>
      cases hr : r a with
      | false =>
        simp
      | true =>
        simp
        try omega
    | true =>
      cases hr : r a with
      | false =>
        simp
        try omega
      | true =>
        rw [hq, hr] at h2
        simp at h2

theorem countP_mem_eq_length {ids sub : List Nat} (hnd_ids : ids.Nodup)
    (hnd_sub : sub.Nodup) (hsub : ∀ i ∈ sub, i ∈ ids) :
    ids.countP (fun i => decide (i ∈ sub)) = sub.length := by
  rw [List.countP_eq_length_filter]
  have hperm : (ids.filter fun i => decide (i ∈ sub)).Perm sub := by
    rw [List.perm_ext_iff_of_nodup (hnd_ids.filter _) hnd_sub]
    intro a
    simp only [List.mem_filter, decide_eq_true_eq]
    constructor
    · rintro ⟨_, ha⟩
      exact ha
    · intro ha
      exact ⟨hsub a ha, ha⟩
  exact hperm.length_eq

theorem keptFor_isSome_of_open {db : DB} {e : Entry} (he : e ∈ db.entries)
    (ho : e.isOpen = true) : ∃ kept, keptFor db e.api_key_id = some kept := by
  cases hk : keptFor db e.api_key_id with
  | some kept => exact ⟨kept, rfl⟩
  | none =>
    exfalso
    rw [keptFor_def, List.find?_eq_none] at hk
    have := hk e ((reconRows_mem db e).mpr ⟨he, ho⟩)
    simp at this

theorem reconcileSpecFun_key (db : DB) (e : Entry) :
    (reconcileSpecFun db e).api_key_id = e.api_key_id := by
  cases hk : keptFor db e.api_key_id with
  | none => simp only [reconcileSpecFun, hk]
  | some kept =>
    simp only [reconcileSpecFun, hk]
    by_cases hc : (e.isOpen && e.id != kept.id) = true
    · rw [if_pos hc]
    · rw [if_neg hc]

theorem reconcileSpecFun_open {db : DB} {e : Entry}
    (ho : (reconcileSpecFun db e).isOpen = true) :
    e.isOpen = true ∧ ∀ kept, keptFor db e.api_key_id = some kept → e.id = kept.id := by
  cases hk : keptFor db e.api_key_id with
  | none =>
    simp only [reconcileSpecFun, hk] at ho
    refine ⟨ho, fun kept hkk => ?_⟩
    cases hkk
  | some kept =>
    simp only [reconcileSpecFun, hk] at ho
    by_cases hc : (e.isOpen && e.id != kept.id) = true
    · rw [if_pos hc] at ho
      exact absurd ho (by simp [Entry.isOpen])
    · rw [if_neg hc] at ho
      refine ⟨ho, fun kept' hkk => ?_⟩
      injection hkk with hkk
      subst hkk
      simp [ho] at hc
      exact hc

theorem spec_open_cases {db : DB} (h : WFdb db) {e : Entry} (he : e ∈ db.entries) :
    (e.isOpen = ((reconcileSpecFun db e).isOpen
        || (e.isOpen && decide (e.id ∈ (flatStalePairs (reconGroups db)).map Prod.fst))))
    ∧ ((reconcileSpecFun db e).isOpen
        && (e.isOpen && decide (e.id ∈ (flatStalePairs (reconGroups db)).map Prod.fst)))
      = false := by
  cases ho : e.isOpen with
  | false =>
    have hs : reconcileSpecFun db e = e := by
      cases hk : keptFor db e.api_key_id with
      | none => simp only [reconcileSpecFun, hk]
      | some kept =>
        simp only [reconcileSpecFun, hk]
        rw [if_neg (by simp [ho])]
    rw [hs, ho]
    simp
  | true =>
    obtain ⟨kept, hk⟩ := keptFor_isSome_of_open he ho
    by_cases hid : e.id = kept.id
    · have hs : reconcileSpecFun db e = e := by
        simp only [reconcileSpecFun, hk]
        rw [if_neg (by simp [hid])]
      have hmem : e.id ∉ (flatStalePairs (reconGroups db)).map Prod.fst := by
        intro hin
        obtain ⟨q, hq, hq1⟩ := List.mem_map.mp hin
        exact kept_not_in_pairs h hk q hq (by rw [hq1, hid])
      rw [hs, ho]
      simp [hmem]
    · have hs : reconcileSpecFun db e = { e with end_time := some kept.start_time } := by
        simp only [reconcileSpecFun, hk]
        rw [if_pos (by simp [ho, hid])]
      have hfind := find?_pairs_stale h hk he rfl ho hid
      have hmem : e.id ∈ (flatStalePairs (reconGroups db)).map Prod.fst :=
        List.mem_map.mpr ⟨(e.id, kept.start_time), List.mem_of_find?_eq_some hfind, rfl⟩
      rw [hs]
      simp [hmem, Entry.isOpen]

theorem reconcile_count {db : DB} (h : WFdb db) :
    db.entries.countP Entry.isOpen
      = (db.entries.map (reconcileSpecFun db)).countP Entry.isOpen
        + (flatStalePairs (reconGroups db)).length := by
  have hsplit := countP_split db.entries Entry.isOpen
    (fun e => (reconcileSpecFun db e).isOpen)
    (fun e => e.isOpen && decide (e.id ∈ (flatStalePairs (reconGroups db)).map Prod.fst))
    (fun e he => spec_open_cases h he)
  rw [hsplit]
  congr 1
  · rw [List.countP_map]
    rfl
  · have h1 : db.entries.countP
        (fun e => e.isOpen
          && decide (e.id ∈ (flatStalePairs (reconGroups db)).map Prod.fst))
        = db.entries.countP
          (fun e => decide (e.id ∈ (flatStalePairs (reconGroups db)).map Prod.fst)
            && e.isOpen) := by
      apply List.countP_congr
      intro e he
      rw [Bool.and_comm]
    have h2 : db.entries.countP
        (fun e => decide (e.id ∈ (flatStalePairs (reconGroups db)).map Prod.fst)
          && e.isOpen)
        = (db.entries.filter fun e => e.isOpen).countP
          (fun e => decide (e.id ∈ (flatStalePairs (reconGroups db)).map Prod.fst)) :=
      (List.countP_filter _ _ _).symm
    have h3 : (db.entries.filter fun e => e.isOpen).countP
        (fun e => decide (e.id ∈ (flatStalePairs (reconGroups db)).map Prod.fst))
        = (reconRows db).countP
          (fun e => decide (e.id ∈ (flatStalePairs (reconGroups db)).map Prod.fst)) :=
      (List.Perm.countP_eq _ (reconRows_perm db)).symm
    have h4 : (reconRows db).countP
        (fun e => decide (e.id ∈ (flatStalePairs (reconGroups db)).map Prod.fst))
        = ((reconRows db).map Entry.id).countP
          (fun i => decide (i ∈ (flatStalePairs (reconGroups db)).map Prod.fst)) := by
      rw [List.countP_map]
      rfl
    have h5 : ((reconRows db).map Entry.id).countP
        (fun i => decide (i ∈ (flatStalePairs (reconGroups db)).map Prod.fst))
        = ((flatStalePairs (reconGroups db)).map Prod.fst).length :=
      countP_mem_eq_length (reconRows_nodup_ids h) (pairs_fst_nodup h) pairs_fst_sub
    rw [h1, h2, h3, h4, h5, List.length_map]

theorem reconcile_oneOpen {db : DB} (h : WFdb db) :
    OneOpenPerOwner (reconcileRunningEntriesForConstraints db).1 := by
  intro k
  rw [reconcile_eq_map h]
  simp only [openCount, List.countP_map]
  cases hk : keptFor db k with
  | none =>
    have hz : db.entries.countP
        ((fun e => e.api_key_id == k && e.isOpen) ∘ reconcileSpecFun db) = 0 := by
      rw [List.countP_eq_zero]
      intro e hmem hpred
      simp only [Function.comp, Bool.and_eq_true, beq_iff_eq] at hpred
      obtain ⟨hpk, hpo⟩ := hpred
      have hkey : e.api_key_id = k := by
        rw [← reconcileSpecFun_key db e, hpk]
      obtain ⟨heo, _⟩ := reconcileSpecFun_open hpo
      obtain ⟨kept, hkk⟩ := keptFor_isSome_of_open hmem heo
      rw [hkey, hk] at hkk
      cases hkk
    rw [hz]
    omega
  | some kept =>
    have hmono : db.entries.countP
          ((fun e => e.api_key_id == k && e.isOpen) ∘ reconcileSpecFun db)
        ≤ db.entries.countP (fun e => e.id == kept.id) := by
      apply List.countP_mono_left
      intro e hmem hpred
      simp only [Function.comp, Bool.and_eq_true, beq_iff_eq] at hpred
      obtain ⟨hpk, hpo⟩ := hpred
      have hkey : e.api_key_id = k := by
        rw [← reconcileSpecFun_key db e, hpk]
      obtain ⟨heo, hkk⟩ := reconcileSpecFun_open hpo
      have hke : keptFor db e.api_key_id = some kept := by
        rw [hkey]
        exact hk
      simp [hkk kept hke]
    refine le_trans hmono ?_
    have hc1 : db.entries.countP (fun e => e.id == kept.id)
        = (db.entries.map Entry.id).countP (fun i => i == kept.id) := by
      rw [List.countP_map]
      rfl
    rw [hc1, ← List.count_eq_countP]
    exact List.nodup_iff_count_le_one.mp h.1 kept.id

theorem reconcile_noop {db : DB} (hinv : OneOpenPerOwner db) :
    reconcileRunningEntriesForConstraints db = (db, 0) := by
  have hpairs : flatStalePairs (reconGroups db) = [] := by
    rw [List.eq_nil_iff_forall_not_mem]
    intro q hq
    obtain ⟨p, hp, hq2⟩ := mem_flatStalePairs.mp hq
    obtain ⟨hnd, hcontent, hcomp⟩ := reconGroups_inv db
    have hpc := hcontent p hp
    have hlen : p.2.length ≤ 1 := by
      rw [hpc, ← List.countP_eq_length_filter]
      have hb := hinv p.1
      rw [openCount] at hb
      calc (reconRows db).countP (fun x => x.api_key_id == p.1)
          = (db.entries.filter fun e => e.isOpen).countP
              (fun x => x.api_key_id == p.1) :=
            List.Perm.countP_eq _ (reconRows_perm db)
        _ = db.entries.countP (fun e => e.api_key_id == p.1 && e.isOpen) :=
            List.countP_filter _ _ _
        _ ≤ 1 := hb
    cases hg : p.2 with
    | nil =>
      rw [hg] at hq2
      simp [stalePairs] at hq2
    | cons a as =>
      rw [hg] at hq2 hlen
      rw [List.length_cons] at hlen
      have has : as = [] := List.length_eq_zero.mp (by omega)
      subst has
      simp [stalePairs] at hq2
  rw [reconcile_eq_closeFun, hpairs]
  have h0 : ∀ e : Entry, closeFun [] e = e := by
    intro e
    cases hh : e.isOpen <;> simp [closeFun, hh]
  rw [List.map_congr_left fun e _ => h0 e, List.map_id']
  rfl

/-- Claim C5. The startup reconciler, for each owner with more than one open
entry, keeps the open entry with the latest start (the kept row of keptFor,
which lies among the owner's open rows and starts no earlier than any of
them) and closes every other open entry of that owner by setting its end to
the kept entry's start_time; every other row is untouched, so the repaired
table is the pointwise image of reconcileSpecFun. The closedCount it returns
(the number it logs) is exactly the drop in the number of open entries; on a
table already satisfying the one-open-per-owner invariant it changes nothing
and reports 0, so a second run after a first one changes nothing. -/
theorem reconcileKeepsLatestClosesRest (db : DB) (h : WFdb db) :
    (reconcileRunningEntriesForConstraints db).1.entries
        = db.entries.map (reconcileSpecFun db)
    ∧ (∀ k kept, keptFor db k = some kept →
        kept ∈ openRows db k ∧
        reconcileSpecFun db kept = kept ∧
        (∀ x ∈ openRows db k, x.start_time ≤ kept.start_time) ∧
        (∀ x ∈ openRows db k, x.id ≠ kept.id →
          reconcileSpecFun db x = { x with end_time := some kept.start_time }))
    ∧ db.entries.countP Entry.isOpen
        = (reconcileRunningEntriesForConstraints db).1.entries.countP Entry.isOpen
          + (reconcileRunningEntriesForConstraints db).2
    ∧ (OneOpenPerOwner db → reconcileRunningEntriesForConstraints db = (db, 0))
    ∧ reconcileRunningEntriesForConstraints (reconcileRunningEntriesForConstraints db).1
        = ((reconcileRunningEntriesForConstraints db).1, 0) := by
  have hmap := reconcile_eq_map h
  refine ⟨?_, ?_, ?_, ?_, ?_⟩
  · rw [hmap]
  · intro k kept hk
    obtain ⟨hkrows, hkkey, hkmax⟩ := keptFor_spec hk
    have hkopen := (reconRows_mem db kept).mp hkrows
    refine ⟨(openRows_mem db k kept).mpr ⟨hkopen.1, hkkey, hkopen.2⟩, ?_, ?_, ?_⟩
    · have hkk : keptFor db kept.api_key_id = some kept := by
        rw [hkkey]
        exact hk
      simp only [reconcileSpecFun, hkk]
      rw [if_neg (by simp)]
    · intro x hx
      obtain ⟨hxe, hxk, hxo⟩ := (openRows_mem db k x).mp hx
      have hxrows : x ∈ reconRows db := (reconRows_mem db x).mpr ⟨hxe, hxo⟩
      rcases hkmax x hxrows hxk with rfl | hle
      · exact le_refl _
      · unfold rowLe at hle
        rw [hkkey, hxk] at hle
        omega
    · intro x hx hne
      obtain ⟨hxe, hxk, hxo⟩ := (openRows_mem db k x).mp hx
      have hxkk : keptFor db x.api_key_id = some kept := by
        rw [hxk]
        exact hk
      simp only [reconcileSpecFun, hxkk]
      rw [if_pos (by simp [hxo, hne])]
  · rw [hmap]
    exact reconcile_count h
  · exact fun hinv => reconcile_noop hinv
  · exact reconcile_noop (reconcile_oneOpen h)

theorem reconcileKeepsLatestClosesRest_witness :
    WFdb exampleDupDb ∧
      ((reconcileRunningEntriesForConstraints exampleDupDb).1.entries
          = exampleDupDb.entries.map (reconcileSpecFun exampleDupDb)
      ∧ (∀ k kept, keptFor exampleDupDb k = some kept →
          kept ∈ openRows exampleDupDb k ∧
          reconcileSpecFun exampleDupDb kept = kept ∧
          (∀ x ∈ openRows exampleDupDb k, x.start_time ≤ kept.start_time) ∧
          (∀ x ∈ openRows exampleDupDb k, x.id ≠ kept.id →
            reconcileSpecFun exampleDupDb x
              = { x with end_time := some kept.start_time }))
      ∧ exampleDupDb.entries.countP Entry.isOpen
          = (reconcileRunningEntriesForConstraints exampleDupDb).1.entries.countP
              Entry.isOpen
            + (reconcileRunningEntriesForConstraints exampleDupDb).2
      ∧ (OneOpenPerOwner exampleDupDb →
          reconcileRunningEntriesForConstraints exampleDupDb = (exampleDupDb, 0))
      ∧ reconcileRunningEntriesForConstraints
            (reconcileRunningEntriesForConstraints exampleDupDb).1
          = ((reconcileRunningEntriesForConstraints exampleDupDb).1, 0)) :=
  ⟨by decide, reconcileKeepsLatestClosesRest exampleDupDb (by decide)⟩

/-- Claim C10. When several open entries of one owner share the latest
start instant, the reconciler's SELECT order (start_time DESC, id DESC)
makes the kept row the one with the largest id: every other open entry of
that owner either starts strictly earlier or shares the start and has a
smaller id, and each of them is closed at the shared start, the repaired
table being the pointwise image of reconcileSpecFun — a function of the
input state, so the outcome is deterministic even under start-time ties. -/
theorem reconcileTieBreakLargestId (db : DB) (h : WFdb db) (k : Nat) (kept : Entry)
    (hk : keptFor db k = some kept) :
    kept ∈ openRows db k
    ∧ (∀ x ∈ openRows db k, x.id ≠ kept.id →
        x.start_time < kept.start_time
          ∨ (x.start_time = kept.start_time ∧ x.id < kept.id))
    ∧ (∀ x ∈ openRows db k, x.id ≠ kept.id →
        reconcileSpecFun db x = { x with end_time := some kept.start_time })
    ∧ (reconcileRunningEntriesForConstraints db).1.entries
        = db.entries.map (reconcileSpecFun db) := by
  obtain ⟨hkrows, hkkey, hkmax⟩ := keptFor_spec hk
  have hkopen := (reconRows_mem db kept).mp hkrows
  refine ⟨(openRows_mem db k kept).mpr ⟨hkopen.1, hkkey, hkopen.2⟩, ?_, ?_, ?_⟩
  · intro x hx hne
    obtain ⟨hxe, hxk, hxo⟩ := (openRows_mem db k x).mp hx
    have hxrows : x ∈ reconRows db := (reconRows_mem db x).mpr ⟨hxe, hxo⟩
    rcases hkmax x hxrows hxk with rfl | hle
    · exact absurd rfl hne
    · unfold rowLe at hle
      rw [hkkey, hxk] at hle
      omega
  · intro x hx hne
    obtain ⟨hxe, hxk, hxo⟩ := (openRows_mem db k x).mp hx
    have hxkk : keptFor db x.api_key_id = some kept := by
      rw [hxk]
      exact hk
    simp only [reconcileSpecFun, hxkk]
    rw [if_pos (by simp [hxo, hne])]
  · rw [reconcile_eq_map h]

theorem reconcileTieBreakLargestId_witness :
    (WFdb exampleTieDb
      ∧ keptFor exampleTieDb 1 = some ⟨5, 1, 1, 10, none⟩) ∧
      ((⟨5, 1, 1, 10, none⟩ : Entry) ∈ openRows exampleTieDb 1
      ∧ (∀ x ∈ openRows exampleTieDb 1, x.id ≠ (⟨5, 1, 1, 10, none⟩ : Entry).id →
          x.start_time < (10 : Int)
            ∨ (x.start_time = (10 : Int) ∧ x.id < 5))
      ∧ (∀ x ∈ openRows exampleTieDb 1, x.id ≠ (⟨5, 1, 1, 10, none⟩ : Entry).id →
          reconcileSpecFun exampleTieDb x = { x with end_time := some 10 })
      ∧ (reconcileRunningEntriesForConstraints exampleTieDb).1.entries
          = exampleTieDb.entries.map (reconcileSpecFun exampleTieDb)) :=
  ⟨⟨by decide, by decide⟩,
    reconcileTieBreakLargestId exampleTieDb (by decide) 1 ⟨5, 1, 1, 10, none⟩
      (by decide)⟩

end Clockout
